import Mathlib

/-!
Verification of the article transcoder
(src/server/bleep/src/webserver/answer/transcoder.rs).

Strings are modelled as lists of characters.  Rust regex and string
operations used by the transcoder are translated into executable Lean
functions over those lists:

* replace_all with a literal pattern  -> replaceAll (leftmost, non-overlapping)
* the escaping round-trip of fixup_xml_code -> unescapeCode / reescapeCode
* the trailing-tag strip regex       -> stripTrailingTag
* the closing-tag append loop        -> appendClosers
* the segment regex and closing-tag search of xml_for_each
                                     -> findTag / firstOcc / xml_for_each

A Rust panic (here: byte-slice with start beyond end in xml_for_each) is
modelled as the value none of an Option result.
-/

set_option maxRecDepth 10000

def toL (s : String) : List Char := s.toList

/-- Whitespace class of the Rust regex escape for white space (ASCII part). -/
def isWs (c : Char) : Bool :=
  c = ' ' || c = '\t' || c = '\n' || c = '\r' || c = '\x0b' || c = '\x0c'

/-- Word-character class of the Rust regex escape for word characters (ASCII part). -/
def isWordChar (c : Char) : Bool :=
  ('a' ≤ c && c ≤ 'z') || ('A' ≤ c && c ≤ 'Z') || ('0' ≤ c && c ≤ '9') || c = '_'

/-- Prefix test on character lists, recursing on the pattern first so that an
    exhausted pattern reduces to true even when the other list is abstract. -/
def isPre : List Char → List Char → Bool
  | [], _ => true
  | _ :: _, [] => false
  | a :: as, b :: bs => a == b && isPre as bs

/-- Fuel-indexed worker for replaceAll.  The fuel only serves termination:
    with fuel at least the length of the list the zero case is unreachable,
    since every step consumes at least one character. -/
def replaceAllF (p r : List Char) : Nat → List Char → List Char
  | 0, l => l
  | _ + 1, [] => []
  | n + 1, a :: l =>
    if isPre p (a :: l) ∧ p ≠ [] then
      r ++ replaceAllF p r n ((a :: l).drop p.length)
    else
      a :: replaceAllF p r n l

/-- Leftmost non-overlapping replacement of the literal pattern p by r,
    as performed by replace_all of the Rust regex crate on a literal pattern. -/
def replaceAll (p r l : List Char) : List Char :=
  replaceAllF p r l.length l

/-- Un-escape pass of fixup_xml_code (transcoder.rs lines 201-203):
    entity for lt to lt, then entity for gt to gt, then entity for amp to amp. -/
def unescapeCode (s : List Char) : List Char :=
  replaceAll (toL "&amp;") (toL "&")
    (replaceAll (toL "&gt;") (toL ">")
      (replaceAll (toL "&lt;") (toL "<") s))

/-- Re-escape pass of fixup_xml_code (transcoder.rs lines 205-207):
    amp first, then lt, then gt. -/
def reescapeCode (s : List Char) : List Char :=
  replaceAll (toL ">") (toL "&gt;")
    (replaceAll (toL "<") (toL "&lt;")
      (replaceAll (toL "&") (toL "&amp;") s))

/-- The escaping normalizer applied to the inner code payload of a segment
    (transcoder.rs lines 182-211): un-escape, then re-escape. -/
def normalizeCode (s : List Char) : List Char :=
  reescapeCode (unescapeCode s)

/-- Character-level view of the amp re-escape pass. -/
def escAmp (a : Char) : List Char :=
  if a = '&' then toL "&amp;" else [a]

/-- Character-level view after amp and lt re-escape passes. -/
def escAmpLt (a : Char) : List Char :=
  if a = '&' then toL "&amp;" else if a = '<' then toL "&lt;" else [a]

/-- Character-level view of a fully re-escaped character. -/
def escChar (a : Char) : List Char :=
  if a = '&' then toL "&amp;" else
  if a = '<' then toL "&lt;" else
  if a = '>' then toL "&gt;" else [a]

/-- Character-level view of a re-escaped character after the lt un-escape pass. -/
def unesc1 (a : Char) : List Char :=
  if a = '&' then toL "&amp;" else
  if a = '<' then ['<'] else
  if a = '>' then toL "&gt;" else [a]

/-- Character-level view of a re-escaped character after the lt and gt un-escape passes. -/
def unesc2 (a : Char) : List Char :=
  if a = '&' then toL "&amp;" else [a]

/-- Condition stating that the pattern p cannot end inside b: no occurrence of
    p lies wholly within b, and no proper nonempty tail of p is a prefix of b. -/
def noSpanIn (p b : List Char) : Prop :=
  ¬ p <:+: b ∧ ∀ k, k < p.length → 0 < k → ¬ (p.drop k <+: b)

instance (p b : List Char) : Decidable (noSpanIn p b) := by
  unfold noSpanIn
  infer_instance

/-- Tag vocabulary of the closing-tag repair loop, in the fixed source order
    (transcoder.rs lines 225-233). -/
def tagNames : List (List Char) :=
  [toL "Code", toL "Language", toL "Path", toL "StartLine", toL "EndLine",
   toL "QuotedCode", toL "GeneratedCode"]

/-- Opening form of a tag name. -/
def openTagOf (t : List Char) : List Char := '<' :: (t ++ ['>'])

/-- Closing form of a tag name. -/
def closeTagOf (t : List Char) : List Char := '<' :: '/' :: (t ++ ['>'])

/-- Removal of a trailing half-written tag (transcoder.rs line 223): the
    anchored regex deletes from the first lt character that is not followed
    by any gt character through the end of the buffer. -/
def stripTrailingTag : List Char → List Char
  | [] => []
  | c :: rest => if c = '<' ∧ '>' ∉ rest then [] else c :: stripTrailingTag rest

/-- One iteration of the closing-tag repair loop (transcoder.rs lines 234-239):
    append the closing form if the buffer contains the opening form but not
    the closing form. -/
def closeStep (buf t : List Char) : List Char :=
  if openTagOf t <:+: buf ∧ ¬ closeTagOf t <:+: buf then buf ++ closeTagOf t else buf

/-- The closing-tag repair loop over the fixed tag vocabulary. -/
def appendClosers (buf : List Char) : List Char := tagNames.foldl closeStep buf

/-- Tag Repair (transcoder.rs lines 213-241): strip a trailing half-written
    tag, then append the missing closing tags in the fixed order. -/
def tagRepair (s : List Char) : List Char := appendClosers (stripTrailingTag s)

/-- Closed-tags invariant for one tag: if the buffer contains the opening
    form then it also contains the closing form. -/
def tagClosed (t buf : List Char) : Prop :=
  openTagOf t <:+: buf → closeTagOf t <:+: buf

instance (t buf : List Char) : Decidable (tagClosed t buf) := by
  unfold tagClosed
  infer_instance

/-- Canonical well-formed QuotedCode block, in the shape produced by the
    encoder and expected by the decoder (transcoder.rs lines 105-115). -/
def quotedBlock (code lang path sl el : List Char) : List Char :=
  toL "<QuotedCode>\n<Code>\n" ++ code ++ toL "</Code>\n<Language>" ++ lang ++
  toL "</Language>\n<Path>" ++ path ++ toL "</Path>\n<StartLine>" ++ sl ++
  toL "</StartLine>\n<EndLine>" ++ el ++ toL "</EndLine>\n</QuotedCode>"

/-- Canonical well-formed GeneratedCode block (transcoder.rs lines 121-127). -/
def generatedBlock (code lang : List Char) : List Char :=
  toL "<GeneratedCode>\n<Code>\n" ++ code ++ toL "</Code>\n<Language>" ++ lang ++
  toL "</Language>\n</GeneratedCode>"

/-- Index of the first occurrence of the literal pattern p in l, as found by
    the find method of the Rust regex crate on a literal pattern. -/
def firstOcc (p : List Char) : List Char → Option Nat
  | [] => if p.isEmpty then some 0 else none
  | c :: l => if isPre p (c :: l) then some 0 else (firstOcc p l).map (· + 1)

/-- Attempt to match the segment regex (newline, optional whitespace, an
    opening tag of word characters; transcoder.rs line 357) at the head of the
    list.  On success, returns the consumed text before the lt character, the
    tag name, and the remainder after the gt character. -/
def matchTagHere (l : List Char) : Option (List Char × List Char × List Char) :=
  match l with
  | '\n' :: r =>
    let ws := r.takeWhile isWs
    match r.drop ws.length with
    | '<' :: r3 =>
      let nm := r3.takeWhile isWordChar
      if nm.isEmpty then none
      else
        match r3.drop nm.length with
        | '>' :: r4 => some ('\n' :: ws, nm, r4)
        | _ => none
    | _ => none
  | _ => none

/-- Leftmost match of the segment regex: returns the text before the match,
    the consumed newline-and-whitespace gap, the tag name, and the text after
    the opening tag. -/
def findTag : List Char → Option (List Char × List Char × List Char × List Char)
  | [] => none
  | c :: l =>
    match matchTagHere (c :: l) with
    | some (gap, nm, rest) => some ([], gap, nm, rest)
    | none =>
      match findTag l with
      | some (pre, gap, nm, rest) => some (c :: pre, gap, nm, rest)
      | none => none

/-- Fuel-indexed worker for xml_for_each.  The fuel only serves termination:
    each iteration consumes at least the closing tag, so fuel equal to the
    document length is enough and the zero case is unreachable.  The value
    none models a Rust panic: the byte-slice rest[tag.start()..m.end()]
    aborts when the first closing-tag occurrence ends before the opening
    bracket (transcoder.rs line 364). -/
def xmlForEachF (f : List Char → Option (List Char)) :
    Nat → List Char → Option (List Char)
  | 0, doc => some doc
  | fuel + 1, doc =>
    match findTag doc with
    | none => some doc
    | some (pre, gap, nm, _rest) =>
      let tagStart := pre.length + gap.length
      match firstOcc (closeTagOf nm) doc with
      | none =>
        let seg := doc.drop tagStart
        some (pre ++ gap ++ ((f seg).getD seg))
      | some j =>
        let e := j + (closeTagOf nm).length
        if tagStart ≤ e then
          let seg := (doc.drop tagStart).take (e - tagStart)
          (xmlForEachF f fuel (doc.drop e)).map
            (fun out => pre ++ gap ++ ((f seg).getD seg) ++ out)
        else none

/-- The segment extractor xml_for_each (transcoder.rs lines 353-382): scan for
    a newline followed by optional whitespace and an opening tag, cut the
    segment at the end of the first occurrence of the matching closing tag in
    the whole unconsumed remainder (or at end of document), apply f to the
    segment, keep the segment when f yields none, and continue after it. -/
def xml_for_each (f : List Char → Option (List Char)) (doc : List Char) :
    Option (List Char) :=
  xmlForEachF f doc.length doc

/-- Search for the lazy end of an HTML comment: the first occurrence of the
    closing marker before any newline (the dot of the comment regex does not
    match newlines).  Returns the text after the marker. -/
def findCommentEnd : List Char → Option (List Char)
  | [] => none
  | c :: l =>
    if isPre (toL "-->") (c :: l) then some ((c :: l).drop 3)
    else if c = '\n' then none
    else findCommentEnd l

/-- Fuel-indexed worker for removeComments; fuel equal to the length of the
    list is enough. -/
def removeCommentsF : Nat → List Char → List Char
  | 0, l => l
  | _ + 1, [] => []
  | fuel + 1, c :: l =>
    if isPre (toL "<!--") (c :: l) then
      match findCommentEnd ((c :: l).drop 4) with
      | some rest => removeCommentsF fuel rest
      | none => c :: removeCommentsF fuel l
    else c :: removeCommentsF fuel l

/-- Deletion of HTML comments (transcoder.rs lines 164-166): replace_all of
    the lazy comment regex with the empty string. -/
def removeComments (l : List Char) : List Char := removeCommentsF l.length l

/-- Attempt to match the opening-tag part of the fixup regex (transcoder.rs
    line 174) at the head of the list: the given opening tag, optional
    whitespace, then the Code opening tag.  Returns the consumed text and the
    remainder (capture group 2). -/
def tryTagAt (tag l : List Char) : Option (List Char × List Char) :=
  if isPre tag l then
    let r := l.drop tag.length
    let ws := r.takeWhile isWs
    let r2 := r.drop ws.length
    if isPre (toL "<Code>") r2 then
      some (tag ++ ws ++ toL "<Code>", r2.drop 6)
    else none
  else none

/-- Leftmost match of the fixup regex for GeneratedCode or QuotedCode
    followed by optional whitespace and a Code opening tag.  Returns the text
    up to and including the Code opening tag, and the rest of the document
    (capture group 2, which extends to end of input). -/
def matchGQCode : List Char → Option (List Char × List Char)
  | [] => none
  | c :: l =>
    match tryTagAt (toL "<GeneratedCode>") (c :: l) with
    | some (pre, g2) => some (pre, g2)
    | none =>
      match tryTagAt (toL "<QuotedCode>") (c :: l) with
      | some (pre, g2) => some (pre, g2)
      | none =>
        match matchGQCode l with
        | some (pre, g2) => some (c :: pre, g2)
        | none => none

/-- The escaping and tag-repair normalizer fixup_xml_code (transcoder.rs
    lines 169-247).  If the trimmed input does not start with a lt character,
    or the fixup regex does not match, the input is returned unchanged.
    Otherwise the code payload (up to the first Code closing tag, or end of
    input) is un-escaped and re-escaped, a trailing half-written tag is
    stripped, and missing closing tags are appended in the fixed order. -/
def fixup_xml_code (xml : List Char) : List Char :=
  if (xml.dropWhile isWs).head? ≠ some '<' then xml
  else
    match matchGQCode xml with
    | none => xml
    | some (pre, g2) =>
      let codeLen := (firstOcc (toL "</Code>") g2).getD g2.length
      let s := g2.take codeLen
      let tail := g2.drop codeLen
      let buf := pre ++ normalizeCode s ++ tail
      appendClosers (stripTrailingTag buf)

/-- The sanitize pass of decode (transcoder.rs lines 162-167): normalize every
    extracted segment with fixup_xml_code, then delete HTML comments from the
    entire result.  The value none models a panic of the extractor. -/
def sanitize (article : List Char) : Option (List Char) :=
  (xml_for_each (fun code => some (fixup_xml_code code)) article).map removeComments

/-- The XML code chunk generated by the LLM (transcoder.rs lines 257-277). -/
inductive CodeChunk where
  | QuotedCode (code language path : List Char) (start_line end_line : Option Nat)
  | GeneratedCode (code language : List Char)
deriving DecidableEq

/-- Digit-string parse of an unsigned integer, as the successful cases of the
    str parse method for u32 (overflow is not modelled; no claim involves
    values near the u32 bound). -/
def parseNat (s : List Char) : Option Nat :=
  if s ≠ [] ∧ s.all Char.isDigit then
    some (s.foldl (fun a c => a * 10 + (c.toNat - 48)) 0)
  else none

/-- Line-number field deserializer (transcoder.rs lines 279-290): an absent
    field stays absent, a present but empty field becomes 0, otherwise the
    digits are parsed and a failed parse yields no value. -/
def deserialize_lineno (o : Option (List Char)) : Option Nat :=
  o.bind (fun s => if s = [] then some 0 else parseNat s)

/-- Whitespace trim of both ends of a text node, as performed by the external
    deserializer on text content (visible in the repository tests, where a
    trailing newline of a truncated Path element does not reach the field). -/
def trimWs (l : List Char) : List Char :=
  ((l.dropWhile isWs).reverse.dropWhile isWs).reverse

/-- Modelled from the spec: the external structured-text deserializer of
    section 6 maps field names to inner tags.  A field value is the whitespace
    trimmed, entity decoded text content of the first inner element with the
    given tag name; an element that never opens, or never closes, gives no
    value. -/
def extractField (name inner : List Char) : Option (List Char) :=
  match firstOcc (openTagOf name) inner with
  | none => none
  | some i =>
    let after := inner.drop (i + (openTagOf name).length)
    match firstOcc (closeTagOf name) after with
    | none => none
    | some j => some (unescapeCode (trimWs (after.take j)))

/-- Modelled from the spec: the external structured-text deserializer of
    section 6 matches the outer tag name against the two CodeChunk variants,
    maps field names to inner tags, and defaults missing fields (strings to
    empty, line numbers through deserialize_lineno); structurally unmappable
    input fails. -/
def deserializeCodeChunk (xml : List Char) : Option CodeChunk :=
  let t := xml.dropWhile isWs
  if isPre (toL "<QuotedCode>") t then
    let inner := t.drop 12
    some (CodeChunk.QuotedCode
      ((extractField (toL "Code") inner).getD [])
      ((extractField (toL "Language") inner).getD [])
      ((extractField (toL "Path") inner).getD [])
      (deserialize_lineno (extractField (toL "StartLine") inner))
      (deserialize_lineno (extractField (toL "EndLine") inner)))
  else if isPre (toL "<GeneratedCode>") t then
    let inner := t.drop 15
    some (CodeChunk.GeneratedCode
      ((extractField (toL "Code") inner).getD [])
      ((extractField (toL "Language") inner).getD []))
  else none

/-- Markdown fence rendering shared by both chunk variants (transcoder.rs
    lines 314-318): absent line numbers render as 0. -/
def codeChunkFence (ty code lang path : List Char) (s e : Option Nat) : List Char :=
  toL "```type:" ++ ty ++ toL ",lang:" ++ lang ++ toL ",path:" ++ path ++
  toL ",lines:" ++ Nat.toDigits 10 (s.getD 0) ++ toL "-" ++
  Nat.toDigits 10 (e.getD 0) ++ toL "\n" ++ code ++ toL "\n```"

/-- Markdown rendering of a code chunk (transcoder.rs lines 292-319). -/
def to_markdown : CodeChunk → List Char
  | CodeChunk.QuotedCode code lang path s e =>
    codeChunkFence (toL "Quoted") code lang path s e
  | CodeChunk.GeneratedCode code lang =>
    codeChunkFence (toL "Generated") code lang [] none none

/-- Segment transcoding xml_to_markdown (transcoder.rs lines 249-254): the
    deserialization failure case is the value none (the caller applies ok). -/
def xml_to_markdown (xml : List Char) : Option (List Char) :=
  (deserializeCodeChunk xml).map to_markdown

/-- The text pass of decode (transcoder.rs lines 19-20): sanitize, then map
    every segment to a markdown fence.  The value none models a panic. -/
def decode_text_pass (article : List Char) : Option (List Char) :=
  (sanitize article).bind (xml_for_each xml_to_markdown)

/-- Segment redaction try_trim_code_xml (transcoder.rs lines 384-424): fixup,
    deserialize, and re-render with the code payload replaced by the fixed
    redaction marker; line-number tags are emitted only for present values. -/
def try_trim_code_xml (xml : List Char) : Option (List Char) :=
  let x := fixup_xml_code xml
  (deserializeCodeChunk x).map (fun c =>
    match c with
    | CodeChunk.QuotedCode _ lang path s e =>
      toL "<QuotedCode>\n<Code>[REDACTED]</Code>\n<Language>" ++ lang ++
      toL "</Language>\n<Path>" ++ path ++ toL "</Path>\n" ++
      ((s.map (fun n => toL "<StartLine>" ++ Nat.toDigits 10 n ++
        toL "</StartLine>\n")).getD []) ++
      ((e.map (fun n => toL "<EndLine>" ++ Nat.toDigits 10 n ++
        toL "</EndLine>\n")).getD []) ++
      toL "</QuotedCode>"
    | CodeChunk.GeneratedCode _ lang =>
      toL "<GeneratedCode>\n<Code>[REDACTED]</Code>\n<Language>" ++ lang ++
      toL "</Language>\n</GeneratedCode>")

/-- The redaction pass of encode_summarized (transcoder.rs lines 155-157):
    redact every extracted segment of an already encoded article. -/
def redact_pass (article : List Char) : Option (List Char) :=
  xml_for_each try_trim_code_xml article

/-- Core of encode_summarized (transcoder.rs lines 154-160) over an already
    encoded article.  The tokenizer lookup and the token truncation are the
    external collaborators of spec section 6 and are passed as parameters.
    The outer none models a panic of the redaction pass, which the source
    runs before the tokenizer lookup; Except.error is the model lookup
    failure returned to the caller. -/
def encode_summarized_core (lookup : List Char → Option Unit)
    (truncate : List Char → List Char) (article model : List Char) :
    Option (Except Unit (List Char)) :=
  match redact_pass article with
  | none => none
  | some a =>
    match lookup model with
    | none => some (Except.error ())
    | some _ => some (Except.ok (truncate a))

/-- Modelled from the spec: a parsed Markdown tree node of the external
    Markdown engine of section 6, restricted to the shapes the decode summary
    scan inspects: paragraphs, footnote definitions with their children, and
    any other block kept opaque. -/
inductive MdNode where
  | paragraph (text : List Char)
  | footnoteDefinition (label : List Char) (children : List MdNode)
  | block (text : List Char)

/-- Test for a footnote definition node. -/
def isFootnoteDef : MdNode → Bool
  | MdNode.footnoteDefinition _ _ => true
  | _ => false

/-- Test for a footnote definition node carrying the reserved summary label. -/
def isSummaryDef : MdNode → Bool
  | MdNode.footnoteDefinition label _ => label == toL "summary"
  | _ => false

/-- The summary scan of decode (transcoder.rs lines 52-68) over the parsed
    top level children (after the sentinel reference has been detached): find
    the first footnote definition labeled summary whose first child is a
    paragraph, detach it, and return its paragraph text as the conclusion;
    other nodes, and summary definitions without a leading paragraph, stay in
    the body in order. -/
def summarySplit : List MdNode → List MdNode × Option (List Char)
  | [] => ([], none)
  | n :: rest =>
    match n with
    | MdNode.footnoteDefinition label children =>
      if label = toL "summary" then
        match children.head? with
        | some (MdNode.paragraph t) => (rest, some t)
        | _ =>
          let r := summarySplit rest
          (n :: r.1, r.2)
      else
        let r := summarySplit rest
        (n :: r.1, r.2)
    | _ =>
      let r := summarySplit rest
      (n :: r.1, r.2)

/-- Modelled from the spec wording of claim C5 for comparison with the code:
    rewrite exactly the payload between the Code opening tag and the first
    following Code closing tag (or end of segment when absent) with the
    escaping normalizer, leaving all other text unchanged. -/
def codePayloadRewriteSpec (seg : List Char) : List Char :=
  match firstOcc (toL "<Code>") seg with
  | none => seg
  | some i =>
    let pre := seg.take (i + 6)
    let after := seg.drop (i + 6)
    match firstOcc (toL "</Code>") after with
    | none => pre ++ normalizeCode after
    | some j => pre ++ normalizeCode (after.take j) ++ after.drop j

theorem isPre_correct (p l : List Char) : isPre p l = true ↔ p <+: l := by
  induction p generalizing l with
  | nil => simp [isPre]
  | cons a p ih =>
    cases l with
    | nil => simp [isPre]
    | cons b l =>
      rw [show isPre (a :: p) (b :: l) = (a == b && isPre p l) from rfl,
        List.cons_prefix_cons, Bool.and_eq_true, beq_iff_eq, ih]

theorem replaceAllF_congr (p r : List Char) :
    ∀ n l, l.length ≤ n → replaceAllF p r n l = replaceAll p r l := by
  intro n
  induction n using Nat.strong_induction_on with
  | _ n ih =>
    intro l hl
    match n, l with
    | 0, l =>
      interval_cases hl' : l.length
      · simp only [List.length_eq_zero] at hl'
        subst hl'
        rfl
    | n + 1, [] => rfl
    | n + 1, a :: l =>
      simp only [List.length_cons] at hl
      show _ = replaceAllF p r (l.length + 1) (a :: l)
      rw [replaceAllF, replaceAllF]
      by_cases hpre : isPre p (a :: l) ∧ p ≠ []
      · simp only [if_pos hpre]
        have hp : 0 < p.length := List.length_pos.mpr hpre.2
        have hd : ((a :: l).drop p.length).length ≤ l.length := by
          simp only [List.length_drop, List.length_cons]
          omega
        rw [ih n (by omega) _ (le_trans hd (by omega)),
          ih l.length (by omega) _ hd]
      · simp only [if_neg hpre]
        rw [ih n (by omega) _ (by omega), ih l.length (by omega) _ (by omega)]

theorem replaceAll_nil (p r : List Char) : replaceAll p r [] = [] := rfl

theorem replaceAll_cons_pos (p r : List Char) (a : Char) (l : List Char)
    (h1 : isPre p (a :: l)) (h2 : p ≠ []) :
    replaceAll p r (a :: l) = r ++ replaceAll p r ((a :: l).drop p.length) := by
  have hp : 0 < p.length := List.length_pos.mpr h2
  show replaceAllF p r (l.length + 1) (a :: l) = _
  rw [replaceAllF, if_pos ⟨h1, h2⟩,
    replaceAllF_congr p r l.length _ (by simp [List.length_drop]; omega)]

theorem replaceAll_cons_neg (p r : List Char) (a : Char) (l : List Char)
    (h : ¬(isPre p (a :: l) ∧ p ≠ [])) :
    replaceAll p r (a :: l) = a :: replaceAll p r l := by
  show replaceAllF p r (l.length + 1) (a :: l) = _
  rw [replaceAllF, if_neg h, replaceAllF_congr p r l.length _ (le_refl _)]

theorem replaceAll_skipB (p r : List Char) (a : Char) (l : List Char)
    (h : isPre p (a :: l) = false) :
    replaceAll p r (a :: l) = a :: replaceAll p r l := by
  apply replaceAll_cons_neg
  simp [h]

theorem replaceAll_single_ne (c : Char) (p r : List Char) (a : Char) (l : List Char)
    (h : a ≠ c) :
    replaceAll (c :: p) r (a :: l) = a :: replaceAll (c :: p) r l := by
  apply replaceAll_cons_neg
  rintro ⟨hpre, -⟩
  rw [isPre_correct] at hpre
  exact h ((List.cons_prefix_cons.mp hpre).1.symm)

theorem replaceAll_here (p r l : List Char) (hp : p ≠ []) :
    replaceAll p r (p ++ l) = r ++ replaceAll p r l := by
  match p with
  | c :: p' =>
    rw [List.cons_append, replaceAll_cons_pos]
    · simp only [List.length_cons, List.drop_succ_cons, List.drop_left]
    · rw [isPre_correct, ← List.cons_append]
      exact List.prefix_append _ _
    · exact hp

theorem reescape_pass1 (l : List Char) :
    replaceAll (toL "&") (toL "&amp;") l = l.flatMap escAmp := by
  induction l with
  | nil => rfl
  | cons a l ih =>
    rw [List.flatMap_cons]
    by_cases ha : a = '&'
    · subst ha
      rw [show ('&' :: l) = toL "&" ++ l from rfl, replaceAll_here _ _ _ (by decide), ih]
      rfl
    · rw [show toL "&" = ['&'] from rfl] at ih ⊢
      rw [replaceAll_single_ne _ _ _ _ _ ha, ih, escAmp, if_neg ha, List.singleton_append]

theorem replaceAll_skip1 (p r : List Char) (c1 : Char) (rest : List Char)
    (h1 : isPre p (c1 :: rest) = false) :
    replaceAll p r (c1 :: rest) = c1 :: replaceAll p r rest :=
  replaceAll_skipB p r c1 rest h1

theorem replaceAll_skip4 (p r : List Char) (c1 c2 c3 c4 : Char) (rest : List Char)
    (h1 : isPre p (c1 :: c2 :: c3 :: c4 :: rest) = false)
    (h2 : isPre p (c2 :: c3 :: c4 :: rest) = false)
    (h3 : isPre p (c3 :: c4 :: rest) = false)
    (h4 : isPre p (c4 :: rest) = false) :
    replaceAll p r (c1 :: c2 :: c3 :: c4 :: rest) =
      c1 :: c2 :: c3 :: c4 :: replaceAll p r rest := by
  rw [replaceAll_skipB _ _ _ _ h1, replaceAll_skipB _ _ _ _ h2,
    replaceAll_skipB _ _ _ _ h3, replaceAll_skipB _ _ _ _ h4]

theorem replaceAll_skip5 (p r : List Char) (c1 c2 c3 c4 c5 : Char) (rest : List Char)
    (h1 : isPre p (c1 :: c2 :: c3 :: c4 :: c5 :: rest) = false)
    (h2 : isPre p (c2 :: c3 :: c4 :: c5 :: rest) = false)
    (h3 : isPre p (c3 :: c4 :: c5 :: rest) = false)
    (h4 : isPre p (c4 :: c5 :: rest) = false)
    (h5 : isPre p (c5 :: rest) = false) :
    replaceAll p r (c1 :: c2 :: c3 :: c4 :: c5 :: rest) =
      c1 :: c2 :: c3 :: c4 :: c5 :: replaceAll p r rest := by
  rw [replaceAll_skipB _ _ _ _ h1, replaceAll_skipB _ _ _ _ h2,
    replaceAll_skipB _ _ _ _ h3, replaceAll_skipB _ _ _ _ h4,
    replaceAll_skipB _ _ _ _ h5]

theorem reescape_pass2 (l : List Char) :
    replaceAll (toL "<") (toL "&lt;") (l.flatMap escAmp) = l.flatMap escAmpLt := by
  induction l with
  | nil => rfl
  | cons a l ih =>
    rw [List.flatMap_cons, List.flatMap_cons]
    by_cases ha : a = '&'
    · subst ha
      show replaceAll (toL "<") (toL "&lt;")
        ('&' :: 'a' :: 'm' :: 'p' :: ';' :: l.flatMap escAmp) = _
      rw [replaceAll_skip5 (toL "<") (toL "&lt;") '&' 'a' 'm' 'p' ';' _
        rfl rfl rfl rfl rfl, ih]
      rfl
    · by_cases hb : a = '<'
      · subst hb
        rw [escAmp, if_neg ha, escAmpLt, if_neg ha, if_pos rfl, List.singleton_append,
          show ('<' :: l.flatMap escAmp) = toL "<" ++ l.flatMap escAmp from rfl,
          replaceAll_here _ _ _ (by decide), ih]
      · rw [escAmp, if_neg ha, escAmpLt, if_neg ha, if_neg hb, List.singleton_append,
          List.singleton_append,
          show toL "<" = ['<'] from rfl, replaceAll_single_ne _ _ _ _ _ hb]
        rw [show ['<'] = toL "<" from rfl, ih]

theorem reescape_pass3 (l : List Char) :
    replaceAll (toL ">") (toL "&gt;") (l.flatMap escAmpLt) = l.flatMap escChar := by
  induction l with
  | nil => rfl
  | cons a l ih =>
    rw [List.flatMap_cons, List.flatMap_cons]
    by_cases ha : a = '&'
    · subst ha
      show replaceAll (toL ">") (toL "&gt;")
        ('&' :: 'a' :: 'm' :: 'p' :: ';' :: l.flatMap escAmpLt) = _
      rw [replaceAll_skip5 (toL ">") (toL "&gt;") '&' 'a' 'm' 'p' ';' _
        rfl rfl rfl rfl rfl, ih]
      rfl
    · by_cases hb : a = '<'
      · subst hb
        show replaceAll (toL ">") (toL "&gt;")
          ('&' :: 'l' :: 't' :: ';' :: l.flatMap escAmpLt) = _
        rw [replaceAll_skip4 (toL ">") (toL "&gt;") '&' 'l' 't' ';' _
          rfl rfl rfl rfl, ih]
        rfl
      · by_cases hc : a = '>'
        · subst hc
          rw [escAmpLt, if_neg ha, if_neg hb, escChar, if_neg ha, if_neg hb, if_pos rfl,
            List.singleton_append,
            show ('>' :: l.flatMap escAmpLt) = toL ">" ++ l.flatMap escAmpLt from rfl,
            replaceAll_here _ _ _ (by decide), ih]
        · rw [escAmpLt, if_neg ha, if_neg hb, escChar, if_neg ha, if_neg hb, if_neg hc,
            List.singleton_append, List.singleton_append,
            show toL ">" = ['>'] from rfl, replaceAll_single_ne _ _ _ _ _ hc]
          rw [show ['>'] = toL ">" from rfl, ih]

theorem reescape_eq_bind (l : List Char) : reescapeCode l = l.flatMap escChar := by
  rw [reescapeCode, reescape_pass1, reescape_pass2, reescape_pass3]

theorem unescape_pass1 (l : List Char) :
    replaceAll (toL "&lt;") (toL "<") (l.flatMap escChar) = l.flatMap unesc1 := by
  induction l with
  | nil => rfl
  | cons a l ih =>
    rw [List.flatMap_cons, List.flatMap_cons]
    by_cases ha : a = '&'
    · subst ha
      show replaceAll (toL "&lt;") (toL "<")
        ('&' :: 'a' :: 'm' :: 'p' :: ';' :: l.flatMap escChar) = _
      rw [replaceAll_skip5 (toL "&lt;") (toL "<") '&' 'a' 'm' 'p' ';' _
        rfl rfl rfl rfl rfl, ih]
      rfl
    · by_cases hb : a = '<'
      · subst hb
        show replaceAll (toL "&lt;") (toL "<")
          (toL "&lt;" ++ l.flatMap escChar) = _
        rw [replaceAll_here _ _ _ (by decide), ih]
        rfl
      · by_cases hc : a = '>'
        · subst hc
          show replaceAll (toL "&lt;") (toL "<")
            ('&' :: 'g' :: 't' :: ';' :: l.flatMap escChar) = _
          rw [replaceAll_skip4 (toL "&lt;") (toL "<") '&' 'g' 't' ';' _
            rfl rfl rfl rfl, ih]
          rfl
        · rw [escChar, if_neg ha, if_neg hb, if_neg hc, unesc1, if_neg ha, if_neg hb, if_neg hc,
            List.singleton_append, List.singleton_append,
            show toL "&lt;" = '&' :: toL "lt;" from rfl, replaceAll_single_ne _ _ _ _ _ ha]
          rw [show ('&' :: toL "lt;") = toL "&lt;" from rfl, ih]

theorem unescape_pass2 (l : List Char) :
    replaceAll (toL "&gt;") (toL ">") (l.flatMap unesc1) = l.flatMap unesc2 := by
  induction l with
  | nil => rfl
  | cons a l ih =>
    rw [List.flatMap_cons, List.flatMap_cons]
    by_cases ha : a = '&'
    · subst ha
      show replaceAll (toL "&gt;") (toL ">")
        ('&' :: 'a' :: 'm' :: 'p' :: ';' :: l.flatMap unesc1) = _
      rw [replaceAll_skip5 (toL "&gt;") (toL ">") '&' 'a' 'm' 'p' ';' _
        rfl rfl rfl rfl rfl, ih]
      rfl
    · by_cases hb : a = '<'
      · subst hb
        show replaceAll (toL "&gt;") (toL ">") ('<' :: l.flatMap unesc1) = _
        rw [replaceAll_skip1 (toL "&gt;") (toL ">") '<' _ rfl, ih]
        rfl
      · by_cases hc : a = '>'
        · subst hc
          show replaceAll (toL "&gt;") (toL ">")
            (toL "&gt;" ++ l.flatMap unesc1) = _
          rw [replaceAll_here _ _ _ (by decide), ih]
          rfl
        · rw [unesc1, if_neg ha, if_neg hb, if_neg hc, unesc2, if_neg ha,
            List.singleton_append, List.singleton_append,
            show toL "&gt;" = '&' :: toL "gt;" from rfl, replaceAll_single_ne _ _ _ _ _ ha]
          rw [show ('&' :: toL "gt;") = toL "&gt;" from rfl, ih]

theorem unescape_pass3 (l : List Char) :
    replaceAll (toL "&amp;") (toL "&") (l.flatMap unesc2) = l := by
  induction l with
  | nil => rfl
  | cons a l ih =>
    rw [List.flatMap_cons]
    by_cases ha : a = '&'
    · subst ha
      show replaceAll (toL "&amp;") (toL "&")
        (toL "&amp;" ++ l.flatMap unesc2) = _
      rw [replaceAll_here _ _ _ (by decide), ih]
      rfl
    · rw [unesc2, if_neg ha, List.singleton_append,
        show toL "&amp;" = '&' :: toL "amp;" from rfl, replaceAll_single_ne _ _ _ _ _ ha]
      rw [show ('&' :: toL "amp;") = toL "&amp;" from rfl, ih]

/-- Un-escaping is a left inverse of re-escaping: the un-escape pass exactly
    decodes every entity produced by the re-escape pass, on any input. -/
theorem unescape_reescape (s : List Char) : unescapeCode (reescapeCode s) = s := by
  rw [reescape_eq_bind, unescapeCode, unescape_pass1, unescape_pass2, unescape_pass3]

/-- C4: the escaping normalizer is idempotent: for any code text containing
    lt, gt, amp characters in any combination and order (escaped, unescaped,
    or mixed), applying the normalizer twice yields the same result as
    applying it once. -/
theorem c4_normalizer_idempotent (s : List Char) :
    normalizeCode (normalizeCode s) = normalizeCode s := by
  show reescapeCode (unescapeCode (reescapeCode (unescapeCode s))) = _
  rw [unescape_reescape]
  rfl

theorem infix_append_of_left {p a : List Char} (b : List Char) (h : p <:+: a) :
    p <:+: a ++ b := by
  obtain ⟨s, t, rfl⟩ := h
  exact ⟨s, t ++ b, by simp⟩

theorem infix_append_of_right {p b : List Char} (a : List Char) (h : p <:+: b) :
    p <:+: a ++ b := by
  obtain ⟨s, t, rfl⟩ := h
  exact ⟨a ++ s, t, by simp⟩

theorem prefix_of_prefix_append {p x y : List Char} (h : p <+: x ++ y)
    (hl : p.length ≤ x.length) : p <+: x := by
  have hp : p = (x ++ y).take p.length := (List.prefix_iff_eq_take.mp h)
  rw [List.take_append_of_le_length hl] at hp
  rw [hp]
  exact List.take_prefix _ _

theorem infix_append_split {p : List Char} :
    ∀ {a b : List Char}, p <:+: a ++ b → p <:+: a ∨ p <:+: b ∨
      ∃ k, 0 < k ∧ k < p.length ∧ p.take k <:+ a ∧ p.drop k <+: b := by
  intro a
  induction a with
  | nil =>
    intro b h
    right; left
    simpa using h
  | cons c a ih =>
    intro b h
    obtain ⟨s, t, hst⟩ := h
    match s, hst with
    | [], hst =>
      simp only [List.nil_append] at hst
      have hpre : p <+: (c :: a) ++ b := ⟨t, by rw [List.cons_append]; exact hst⟩
      by_cases hl : p.length ≤ (c :: a).length
      · left
        exact (prefix_of_prefix_append hpre hl).isInfix
      · right; right
        have hp : p = ((c :: a) ++ b).take p.length := List.prefix_iff_eq_take.mp hpre
        refine ⟨(c :: a).length, by simp, by omega, ?_, ?_⟩
        · have heq : p.take (c :: a).length = c :: a := by
            conv_lhs => rw [hp]
            rw [List.take_take, min_eq_left (by omega), List.take_left]
          rw [heq]
        · have heq : p.drop (c :: a).length = b.take (p.length - (c :: a).length) := by
            conv_lhs => rw [hp]
            rw [List.drop_take, List.drop_left]
          rw [heq]
          exact List.take_prefix _ _
    | d :: s', hst =>
      simp only [List.cons_append, List.cons.injEq] at hst
      have hin : p <:+: a ++ b := ⟨s', t, hst.2⟩
      rcases ih hin with h1 | h2 | ⟨k, hk0, hkl, htk, hdk⟩
      · left
        exact infix_append_of_right [c] h1
      · right; left
        exact h2
      · right; right
        exact ⟨k, hk0, hkl, htk.trans (List.suffix_cons c a), hdk⟩

theorem not_infix_append_of_noSpanIn {p a b : List Char}
    (hn : noSpanIn p b) (ha : ¬ p <:+: a) : ¬ p <:+: a ++ b := by
  intro h
  rcases infix_append_split h with h1 | h2 | ⟨k, hk0, hkl, -, hdrop⟩
  · exact ha h1
  · exact hn.1 h2
  · exact hn.2 k hkl hk0 hdrop

theorem tag_spans_ok :
    ∀ t ∈ tagNames, ∀ u ∈ tagNames, noSpanIn (openTagOf t) (closeTagOf u) := by
  decide

theorem closeStep_preserves {t : List Char} (u buf : List Char)
    (hspan : noSpanIn (openTagOf t) (closeTagOf u)) (h : tagClosed t buf) :
    tagClosed t (closeStep buf u) := by
  unfold closeStep
  split
  · intro hop
    have hbuf : openTagOf t <:+: buf := by
      by_contra hno
      exact not_infix_append_of_noSpanIn hspan hno hop
    exact infix_append_of_left _ (h hbuf)
  · exact h

theorem closeStep_establishes (t buf : List Char) : tagClosed t (closeStep buf t) := by
  unfold closeStep
  split
  · intro _
    exact infix_append_of_right _ (List.suffix_refl _).isInfix
  · intro hop
    rename_i hcond
    rcases not_and_or.mp hcond with h1 | h2
    · exact absurd hop h1
    · exact not_not.mp h2

theorem foldl_closeStep_preserves {t : List Char} :
    ∀ (l : List (List Char)), (∀ u ∈ l, noSpanIn (openTagOf t) (closeTagOf u)) →
      ∀ buf, tagClosed t buf → tagClosed t (l.foldl closeStep buf) := by
  intro l
  induction l with
  | nil => intro _ buf h; exact h
  | cons u l ih =>
    intro hl buf h
    rw [List.foldl_cons]
    exact ih (fun v hv => hl v (List.mem_cons_of_mem u hv))
      (closeStep buf u) (closeStep_preserves u buf (hl u (List.mem_cons_self u l)) h)

theorem foldl_closeStep_complete :
    ∀ (l : List (List Char)), (∀ u ∈ l, u ∈ tagNames) →
      ∀ t ∈ l, ∀ buf, tagClosed t (l.foldl closeStep buf) := by
  intro l
  induction l with
  | nil => intro _ t ht; exact absurd ht (List.not_mem_nil t)
  | cons u l ih =>
    intro hl t ht buf
    rw [List.foldl_cons]
    rcases List.mem_cons.mp ht with rfl | htl
    · exact foldl_closeStep_preserves l
        (fun v hv => tag_spans_ok t (hl t ht) v (hl v (List.mem_cons_of_mem t hv)))
        (closeStep buf t) (closeStep_establishes t buf)
    · exact ih (fun v hv => hl v (List.mem_cons_of_mem u hv)) t htl (closeStep buf u)

/-- After the repair loop, every tag of the vocabulary whose opening form
    occurs in the buffer also has its closing form in the buffer. -/
theorem tagRepair_complete (s : List Char) :
    ∀ t ∈ tagNames, tagClosed t (tagRepair s) :=
  fun t ht => foldl_closeStep_complete tagNames (fun _ hv => hv) t ht (stripTrailingTag s)

/-- C3: for any prefix-truncation of a well-formed QuotedCode or GeneratedCode
    block, cut at any byte offset, Tag Repair (strip the trailing partial tag,
    then append the missing closing tags in the fixed order) leaves no tag of
    the vocabulary with an opening form but no closing form, so deserialization
    cannot fail for lack of a closing tag. -/
theorem c3_repair_completeness (code lang path sl el : List Char) (n : Nat) :
    (∀ t ∈ tagNames,
      tagClosed t (tagRepair ((quotedBlock code lang path sl el).take n))) ∧
    (∀ t ∈ tagNames,
      tagClosed t (tagRepair ((generatedBlock code lang).take n))) :=
  ⟨tagRepair_complete _, tagRepair_complete _⟩

theorem c3_repair_completeness_witness :
    closeTagOf (toL "Code") <:+:
      tagRepair ((quotedBlock (toL "x") (toL "Rust") (toL "a.rs") (toL "1")
        (toL "2")).take 21) :=
  (c3_repair_completeness (toL "x") (toL "Rust") (toL "a.rs") (toL "1") (toL "2")
    21).1 (toL "Code") (by decide) (by decide)

theorem firstOcc_nil_of_ne (p : List Char) (hp : p ≠ []) : firstOcc p [] = none := by
  simp [firstOcc, hp]

theorem firstOcc_append (p : List Char) {X : List Char} (B : List Char)
    (h1 : ¬ p <:+: X)
    (h2 : ∀ k, k < p.length → 0 < k → ¬ (p.take k <:+ X)) :
    firstOcc p (X ++ B) = (firstOcc p B).map (· + X.length) := by
  induction X with
  | nil =>
    simp only [List.nil_append, List.length_nil]
    cases firstOcc p B <;> rfl
  | cons c X ih =>
    have hnotpre : ¬ p <+: (c :: X) ++ B := by
      intro hpre
      by_cases hl : p.length ≤ (c :: X).length
      · exact h1 (prefix_of_prefix_append hpre hl).isInfix
      · refine h2 (c :: X).length (by omega) (by simp) ?_
        have hpt := List.prefix_iff_eq_take.mp hpre
        have heq : p.take (c :: X).length = c :: X := by
          conv_lhs => rw [hpt]
          rw [List.take_take, min_eq_left (by omega), List.take_left]
        rw [heq]
    have h1' : ¬ p <:+: X := fun h => h1 (infix_append_of_right [c] h)
    have h2' : ∀ k, k < p.length → 0 < k → ¬ (p.take k <:+ X) :=
      fun k hk hk0 h => h2 k hk hk0 (h.trans (List.suffix_cons c X))
    rw [List.cons_append, firstOcc, if_neg]
    · rw [ih h1' h2', Option.map_map]
      cases firstOcc p B with
      | none => rfl
      | some j =>
        simp only [Option.map_some', Function.comp_apply, List.length_cons]
        congr 1
    · rw [isPre_correct]
      exact hnotpre

theorem xmlForEachF_congr (f : List Char → Option (List Char)) :
    ∀ n doc, doc.length ≤ n → xmlForEachF f n doc = xml_for_each f doc := by
  intro n
  induction n using Nat.strong_induction_on with
  | _ n ih =>
    intro doc hdoc
    match n, doc with
    | 0, doc =>
      have hd : doc = [] := List.length_eq_zero.mp (Nat.le_zero.mp hdoc)
      subst hd
      rfl
    | n + 1, [] => rfl
    | n + 1, c :: l =>
      simp only [List.length_cons] at hdoc
      show xmlForEachF f (n + 1) (c :: l) = xmlForEachF f (l.length + 1) (c :: l)
      cases hft : findTag (c :: l) with
      | none => simp only [xmlForEachF, hft]
      | some q =>
        obtain ⟨pre, gap, nm, rest⟩ := q
        cases hfo : firstOcc (closeTagOf nm) (c :: l) with
        | none => simp only [xmlForEachF, hft, hfo]
        | some j =>
          simp only [xmlForEachF, hft, hfo]
          split
          · have hd : ((c :: l).drop (j + (closeTagOf nm).length)).length ≤ l.length := by
              have he : 0 < j + (closeTagOf nm).length := by
                simp only [closeTagOf, List.length_cons, List.length_append]
                omega
              simp only [List.length_drop, List.length_cons]
              omega
            rw [ih n (by omega) _ (le_trans hd (by omega))]
            rw [show xml_for_each f ((c :: l).drop (j + (closeTagOf nm).length)) =
              xmlForEachF f l.length ((c :: l).drop (j + (closeTagOf nm).length)) from
              (ih l.length (by omega) _ hd).symm]
          · rfl

theorem xml_for_each_no_tag (f : List Char → Option (List Char)) (doc : List Char)
    (h : findTag doc = none) : xml_for_each f doc = some doc := by
  cases doc with
  | nil => rfl
  | cons c l =>
    show xmlForEachF f (l.length + 1) (c :: l) = _
    simp only [xmlForEachF, h]

theorem xml_for_each_no_close (f : List Char → Option (List Char))
    (doc pre gap nm rest : List Char)
    (hf : findTag doc = some (pre, gap, nm, rest))
    (ho : firstOcc (closeTagOf nm) doc = none) :
    xml_for_each f doc =
      some (pre ++ gap ++
        ((f (doc.drop (pre.length + gap.length))).getD
          (doc.drop (pre.length + gap.length)))) := by
  cases doc with
  | nil => exact absurd hf (by simp [findTag])
  | cons c l =>
    show xmlForEachF f (l.length + 1) (c :: l) = _
    simp only [xmlForEachF, hf, ho]

theorem xml_for_each_found (f : List Char → Option (List Char))
    (doc pre gap nm rest : List Char) (j : Nat)
    (hf : findTag doc = some (pre, gap, nm, rest))
    (ho : firstOcc (closeTagOf nm) doc = some j)
    (hle : pre.length + gap.length ≤ j + (closeTagOf nm).length) :
    xml_for_each f doc =
      (xml_for_each f (doc.drop (j + (closeTagOf nm).length))).map
        (fun out => pre ++ gap ++
          ((f ((doc.drop (pre.length + gap.length)).take
              (j + (closeTagOf nm).length - (pre.length + gap.length)))).getD
            ((doc.drop (pre.length + gap.length)).take
              (j + (closeTagOf nm).length - (pre.length + gap.length)))) ++ out) := by
  cases doc with
  | nil => exact absurd hf (by simp [findTag])
  | cons c l =>
    show xmlForEachF f (l.length + 1) (c :: l) = _
    simp only [xmlForEachF, hf, ho, if_pos hle]
    have hd : ((c :: l).drop (j + (closeTagOf nm).length)).length ≤ l.length := by
      have he : 0 < j + (closeTagOf nm).length := by
        simp only [closeTagOf, List.length_cons, List.length_append]
        omega
      simp only [List.length_drop, List.length_cons]
      omega
    rw [xmlForEachF_congr f l.length _ hd]

theorem xml_for_each_abort (f : List Char → Option (List Char))
    (doc pre gap nm rest : List Char) (j : Nat)
    (hf : findTag doc = some (pre, gap, nm, rest))
    (ho : firstOcc (closeTagOf nm) doc = some j)
    (hlt : j + (closeTagOf nm).length < pre.length + gap.length) :
    xml_for_each f doc = none := by
  cases doc with
  | nil => exact absurd hf (by simp [findTag])
  | cons c l =>
    show xmlForEachF f (l.length + 1) (c :: l) = _
    simp only [xmlForEachF, hf, ho,
      if_neg (by omega : ¬ pre.length + gap.length ≤ j + (closeTagOf nm).length)]

/-- C1: the claim says decode never fails or aborts on any input string; the
    code violates it.  On the input "</Foo>\n<Foo>" the extractor finds the
    opening tag Foo at byte 7, finds the first occurrence of the closing tag
    ending at byte 6, and the byte-slice rest[7..6] panics; the panic is
    reached inside sanitize, before any external collaborator runs, so decode
    aborts.  This theorem evaluates the decode text pass at the failing
    input. -/
theorem c1_decode_aborts : decode_text_pass (toL "</Foo>\n<Foo>") = none := by decide

/-- C2: counterexample to the claim as stated.  The claim says the closing
    tag is searched in the remainder of the document after the opening tag,
    which on this input finds no closing tag and yields the segment from the
    opening bracket to end of document, hence a defined result with the
    segment kept.  The code searches the whole unconsumed remainder, finds
    the closing occurrence that ends before the opening bracket, and aborts:
    the extractor returns no result at all. -/
theorem c2_counterexample :
    xml_for_each (fun s => some s) (toL "</Qux>\n<Qux>") = none := by decide

/-- C2 (amended): for the first match of the segment pattern, the closing tag
    is searched in the entire unconsumed remainder, including the text before
    the opening tag.  When the first occurrence of the closing tag lies after
    the opening tag, the segment spans from the opening angle bracket through
    the end of that occurrence and scanning continues after it; when there is
    no occurrence, the segment spans to end of document; when the first
    occurrence ends before the opening angle bracket, the extractor aborts. -/
theorem c2_amended (f : List Char → Option (List Char)) (B : List Char) :
    (firstOcc (toL "</Foo>") B = none →
      xml_for_each f (toL "A\n<Foo>" ++ B) =
        some (toL "A\n" ++ ((f (toL "<Foo>" ++ B)).getD (toL "<Foo>" ++ B)))) ∧
    (∀ j, firstOcc (toL "</Foo>") B = some j →
      xml_for_each f (toL "A\n<Foo>" ++ B) =
        (xml_for_each f (B.drop (j + 6))).map
          (fun out => toL "A\n" ++
            ((f (toL "<Foo>" ++ B.take (j + 6))).getD
              (toL "<Foo>" ++ B.take (j + 6))) ++ out)) ∧
    xml_for_each f (toL "</Foo>\n<Foo>") = none := by
  have hft : findTag (toL "A\n<Foo>" ++ B) =
      some (toL "A", toL "\n", toL "Foo", B) := rfl
  have hfo : firstOcc (toL "</Foo>") (toL "A\n<Foo>" ++ B) =
      (firstOcc (toL "</Foo>") B).map (· + 7) := by
    have h := firstOcc_append (toL "</Foo>") (X := toL "A\n<Foo>") B
      (by decide) (by decide)
    simpa using h
  refine ⟨?_, ?_, ?_⟩
  · intro hB
    have ho : firstOcc (closeTagOf (toL "Foo")) (toL "A\n<Foo>" ++ B) = none := by
      show firstOcc (toL "</Foo>") (toL "A\n<Foo>" ++ B) = none
      rw [hfo, hB]
      rfl
    have h := xml_for_each_no_close f (toL "A\n<Foo>" ++ B)
      (toL "A") (toL "\n") (toL "Foo") B hft ho
    exact h
  · intro j hB
    have ho : firstOcc (closeTagOf (toL "Foo")) (toL "A\n<Foo>" ++ B) =
        some (j + 7) := by
      show firstOcc (toL "</Foo>") (toL "A\n<Foo>" ++ B) = some (j + 7)
      rw [hfo, hB]
      rfl
    have h := xml_for_each_found f (toL "A\n<Foo>" ++ B)
      (toL "A") (toL "\n") (toL "Foo") B (j + 7) hft ho
      (by show 1 + 1 ≤ j + 7 + 6; omega)
    have e1 : (toL "A\n<Foo>" ++ B).drop (j + 7 + (closeTagOf (toL "Foo")).length) =
        B.drop (j + 6) := by
      show (toL "A\n<Foo>" ++ B).drop (j + 7 + 6) = B.drop (j + 6)
      rw [show j + 7 + 6 = (toL "A\n<Foo>").length + (j + 6) from by
        show j + 7 + 6 = 7 + (j + 6)
        omega]
      exact List.drop_append (j + 6)
    have e2 : ((toL "A\n<Foo>" ++ B).drop
          ((toL "A").length + (toL "\n").length)).take
          (j + 7 + (closeTagOf (toL "Foo")).length -
            ((toL "A").length + (toL "\n").length)) =
        toL "<Foo>" ++ B.take (j + 6) := by
      show ((toL "A\n<Foo>" ++ B).drop 2).take (j + 7 + 6 - 2) = _
      have hdd : (toL "A\n<Foo>" ++ B).drop 2 = toL "<Foo>" ++ B := rfl
      rw [hdd, show j + 7 + 6 - 2 = (toL "<Foo>").length + (j + 6) from by
        show j + 7 + 6 - 2 = 5 + (j + 6)
        omega]
      exact List.take_append (j + 6)
    rw [h, e1, e2]
    rfl
  · exact xml_for_each_abort f (toL "</Foo>\n<Foo>")
      (toL "</Foo>") (toL "\n") (toL "Foo") [] 0 rfl rfl (by decide)

theorem c2_amended_witness :
    xml_for_each (fun s => some s) (toL "A\n<Foo>X</Foo>Y") =
      some (toL "A\n<Foo>X</Foo>Y") := by
  have h := (c2_amended (fun s => some s) (toL "X</Foo>Y")).2.1 1 (by decide)
  rw [show (toL "A\n<Foo>" ++ toL "X</Foo>Y") = toL "A\n<Foo>X</Foo>Y" from rfl] at h
  rw [h]
  decide

theorem isPre_cons_false (c : Char) (p : List Char) (x : Char) (l : List Char)
    (h : x ≠ c) : isPre (c :: p) (x :: l) = false := by
  show (c == x && isPre p l) = false
  rw [beq_eq_false_iff_ne.mpr (Ne.symm h), Bool.false_and]

theorem findCommentEnd_length :
    ∀ l r, findCommentEnd l = some r → r.length ≤ l.length := by
  intro l
  induction l with
  | nil => intro r h; exact absurd h (by simp [findCommentEnd])
  | cons x l ih =>
    intro r h
    rw [findCommentEnd] at h
    by_cases hp : isPre (toL "-->") (x :: l) = true
    · rw [if_pos hp] at h
      cases h
      simp only [List.drop_succ_cons, List.length_drop, List.length_cons]
      omega
    · rw [if_neg hp] at h
      by_cases hn : x = '\n'
      · rw [if_pos hn] at h
        exact absurd h (by simp)
      · rw [if_neg hn] at h
        exact le_trans (ih r h) (by simp)

theorem removeCommentsF_congr :
    ∀ n l, l.length ≤ n → removeCommentsF n l = removeComments l := by
  intro n
  induction n using Nat.strong_induction_on with
  | _ n ih =>
    intro l hl
    match n, l with
    | 0, l =>
      have hd : l = [] := List.length_eq_zero.mp (Nat.le_zero.mp hl)
      subst hd
      rfl
    | n + 1, [] => rfl
    | n + 1, c :: l =>
      simp only [List.length_cons] at hl
      show _ = removeCommentsF (l.length + 1) (c :: l)
      rw [removeCommentsF, removeCommentsF]
      by_cases hp : isPre (toL "<!--") (c :: l) = true
      · rw [if_pos hp, if_pos hp]
        cases hend : findCommentEnd ((c :: l).drop 4) with
        | none =>
          show c :: removeCommentsF n l = c :: removeCommentsF l.length l
          rw [ih n (by omega) l (by omega), ih l.length (by omega) l (by omega)]
        | some rest =>
          have hrl : rest.length ≤ l.length := by
            have h1 := findCommentEnd_length _ _ hend
            simp only [List.drop_succ_cons, List.length_drop] at h1
            omega
          show removeCommentsF n rest = removeCommentsF l.length rest
          rw [ih n (by omega) rest (by omega), ih l.length (by omega) rest hrl]
      · rw [if_neg hp, if_neg hp,
          ih n (by omega) l (by omega), ih l.length (by omega) l (by omega)]

theorem removeComments_skipB (c : Char) (l : List Char)
    (h : isPre (toL "<!--") (c :: l) = false) :
    removeComments (c :: l) = c :: removeComments l := by
  show removeCommentsF (l.length + 1) (c :: l) = _
  rw [removeCommentsF, if_neg (by simp [h])]
  rfl

theorem removeComments_found (c : Char) (l rest : List Char)
    (hpre : isPre (toL "<!--") (c :: l) = true)
    (hend : findCommentEnd ((c :: l).drop 4) = some rest) :
    removeComments (c :: l) = removeComments rest := by
  have hrl : rest.length ≤ l.length := by
    have h1 := findCommentEnd_length _ _ hend
    simp only [List.drop_succ_cons, List.length_drop] at h1
    omega
  show removeCommentsF (l.length + 1) (c :: l) = _
  rw [removeCommentsF, if_pos hpre, hend]
  exact removeCommentsF_congr l.length rest hrl

theorem removeComments_clean_append (X r : List Char) (hX : '<' ∉ X) :
    removeComments (X ++ r) = X ++ removeComments r := by
  induction X with
  | nil => rfl
  | cons x X ih =>
    have hx : x ≠ '<' := fun h => hX (h ▸ List.mem_cons_self x X)
    rw [List.cons_append,
      removeComments_skipB x (X ++ r) (isPre_cons_false _ _ _ _ hx),
      ih (fun h => hX (List.mem_cons_of_mem x h)), List.cons_append]

theorem findCommentEnd_clean_append (c r : List Char)
    (hc : ∀ x ∈ c, x ≠ '-' ∧ x ≠ '\n') :
    findCommentEnd (c ++ r) = findCommentEnd r := by
  induction c with
  | nil => rfl
  | cons x c ih =>
    have hx := hc x (List.mem_cons_self x c)
    rw [List.cons_append, findCommentEnd, if_neg, if_neg hx.2,
      ih (fun y hy => hc y (List.mem_cons_of_mem x hy))]
    intro hp
    rw [show (toL "-->") = '-' :: toL "->" from rfl, isPre_correct] at hp
    exact hx.1 (List.cons_prefix_cons.mp hp).1.symm

theorem isPre_append_self (p r : List Char) : isPre p (p ++ r) = true := by
  rw [isPre_correct]
  exact List.prefix_append p r

theorem findCommentEnd_marker (rest : List Char) :
    findCommentEnd (toL "-->" ++ rest) = some rest := by
  show findCommentEnd ('-' :: '-' :: '>' :: rest) = some rest
  rw [findCommentEnd,
    if_pos (show isPre (toL "-->") ('-' :: '-' :: '>' :: rest) = true from
      isPre_append_self (toL "-->") rest)]
  rfl

theorem removeComments_comment (c rest : List Char)
    (hc : ∀ x ∈ c, x ≠ '-' ∧ x ≠ '\n') :
    removeComments (toL "<!--" ++ c ++ (toL "-->" ++ rest)) = removeComments rest := by
  have hshape : toL "<!--" ++ c ++ (toL "-->" ++ rest) =
      '<' :: ('!' :: '-' :: '-' :: (c ++ (toL "-->" ++ rest))) := by
    simp [toL, List.append_assoc]
  have hpre : isPre (toL "<!--") ('<' :: ('!' :: '-' :: '-' :: (c ++ (toL "-->" ++ rest)))) = true := by
    show isPre (toL "<!--") (toL "<!--" ++ (c ++ (toL "-->" ++ rest))) = true
    exact isPre_append_self _ _
  have hend : findCommentEnd
      (('<' :: ('!' :: '-' :: '-' :: (c ++ (toL "-->" ++ rest)))).drop 4) =
      some rest := by
    show findCommentEnd (c ++ (toL "-->" ++ rest)) = some rest
    rw [findCommentEnd_clean_append c _ hc]
    exact findCommentEnd_marker rest
  rw [hshape, removeComments_found _ _ _ hpre hend]

theorem matchTagHere_ne (x : Char) (l : List Char) (h : x ≠ '\n') :
    matchTagHere (x :: l) = none := by
  unfold matchTagHere
  split
  · rename_i heq
    injection heq with h1 h2
    exact absurd h1 h
  · rfl

theorem findTag_no_newline (doc : List Char) (h : '\n' ∉ doc) : findTag doc = none := by
  induction doc with
  | nil => rfl
  | cons c l ih =>
    have hc : c ≠ '\n' := fun he => h (he ▸ List.mem_cons_self c l)
    have hl : '\n' ∉ l := fun hm => h (List.mem_cons_of_mem c hm)
    simp only [findTag, matchTagHere_ne c l hc, ih hl]

/-- C10: the sanitize pass of decode deletes every HTML comment matching the
    lazy comment regex (open marker, non-newline characters, close marker)
    from the entire document, including prose outside any tagged segment, so
    text outside segments is not always passed through verbatim.  Shown for a
    document with no tagged segment and two comments with arbitrary
    newline-free, dash-free, bracket-free contents. -/
theorem c10_sanitize_removes_comments (c d : List Char)
    (hc : ∀ x ∈ c, x ≠ '<' ∧ x ≠ '-' ∧ x ≠ '\n')
    (hd : ∀ x ∈ d, x ≠ '<' ∧ x ≠ '-' ∧ x ≠ '\n') :
    sanitize (toL "Hello " ++ (toL "<!--" ++ (c ++ (toL "-->" ++ (toL " mid " ++
      (toL "<!--" ++ (d ++ (toL "-->" ++ toL " out")))))))) =
      some (toL "Hello " ++ (toL " mid " ++ toL " out")) := by
  have hc2 : ∀ x ∈ c, x ≠ '-' ∧ x ≠ '\n' := fun x hx => ⟨(hc x hx).2.1, (hc x hx).2.2⟩
  have hd2 : ∀ x ∈ d, x ≠ '-' ∧ x ≠ '\n' := fun x hx => ⟨(hd x hx).2.1, (hd x hx).2.2⟩
  have hnn : '\n' ∉ (toL "Hello " ++ (toL "<!--" ++ (c ++ (toL "-->" ++ (toL " mid " ++
      (toL "<!--" ++ (d ++ (toL "-->" ++ toL " out")))))))) := by
    intro hmem
    simp only [List.mem_append] at hmem
    rcases hmem with h | h | h | h | h | h | h | h | h
    · exact absurd h (by decide)
    · exact absurd h (by decide)
    · exact (hc _ h).2.2 rfl
    · exact absurd h (by decide)
    · exact absurd h (by decide)
    · exact absurd h (by decide)
    · exact (hd _ h).2.2 rfl
    · exact absurd h (by decide)
    · exact absurd h (by decide)
  have hx : xml_for_each (fun code => some (fixup_xml_code code))
      (toL "Hello " ++ (toL "<!--" ++ (c ++ (toL "-->" ++ (toL " mid " ++
        (toL "<!--" ++ (d ++ (toL "-->" ++ toL " out")))))))) =
      some (toL "Hello " ++ (toL "<!--" ++ (c ++ (toL "-->" ++ (toL " mid " ++
        (toL "<!--" ++ (d ++ (toL "-->" ++ toL " out")))))))) :=
    xml_for_each_no_tag _ _ (findTag_no_newline _ hnn)
  rw [sanitize, hx, Option.map_some']
  rw [removeComments_clean_append (toL "Hello ") _ (by decide)]
  rw [show toL "<!--" ++ (c ++ (toL "-->" ++ (toL " mid " ++
      (toL "<!--" ++ (d ++ (toL "-->" ++ toL " out")))))) =
    toL "<!--" ++ c ++ (toL "-->" ++ (toL " mid " ++
      (toL "<!--" ++ (d ++ (toL "-->" ++ toL " out"))))) from by
    rw [List.append_assoc]]
  rw [removeComments_comment c _ hc2]
  rw [removeComments_clean_append (toL " mid ") _ (by decide)]
  rw [show toL "<!--" ++ (d ++ (toL "-->" ++ toL " out")) =
    toL "<!--" ++ d ++ (toL "-->" ++ toL " out") from by rw [List.append_assoc]]
  rw [removeComments_comment d _ hd2]
  rw [show removeComments (toL " out") = toL " out" from by decide]

theorem c10_sanitize_removes_comments_witness :
    sanitize (toL "Hello <!--x--> mid <!--y--> out") =
      some (toL "Hello  mid  out") := by
  have h := c10_sanitize_removes_comments (toL "x") (toL "y") (by decide) (by decide)
  rw [show (toL "Hello " ++ (toL "<!--" ++ (toL "x" ++ (toL "-->" ++ (toL " mid " ++
      (toL "<!--" ++ (toL "y" ++ (toL "-->" ++ toL " out")))))))) =
    toL "Hello <!--x--> mid <!--y--> out" from by decide,
    show (toL "Hello " ++ (toL " mid " ++ toL " out")) = toL "Hello  mid  out" from by
      decide] at h
  exact h

theorem stripTrailingTag_id (l : List Char) (h : l.getLast? = some '>') :
    stripTrailingTag l = l := by
  induction l with
  | nil => rfl
  | cons c rest ih =>
    cases rest with
    | nil =>
      have hc : c = '>' := by
        simpa [List.getLast?] using h
      subst hc
      decide
    | cons d rest2 =>
      rw [List.getLast?_cons_cons] at h
      have hmem : '>' ∈ d :: rest2 := by
        obtain ⟨hne, heq⟩ := List.mem_getLast?_eq_getLast (Option.mem_def.mpr h)
        exact heq ▸ List.getLast_mem hne
      rw [stripTrailingTag, if_neg, ih h]
      rintro ⟨-, hno⟩
      exact hno hmem

theorem foldl_closeStep_id (l : List (List Char)) (buf : List Char)
    (h : ∀ t ∈ l, tagClosed t buf) : l.foldl closeStep buf = buf := by
  induction l with
  | nil => rfl
  | cons t l ih =>
    have hstep : closeStep buf t = buf := by
      unfold closeStep
      rw [if_neg]
      rintro ⟨ho, hc⟩
      exact hc (h t (List.mem_cons_self t l) ho)
    rw [List.foldl_cons, hstep]
    exact ih (fun u hu => h u (List.mem_cons_of_mem t hu))

theorem appendClosers_id (buf : List Char)
    (h : ∀ t ∈ tagNames, tagClosed t buf) : appendClosers buf = buf :=
  foldl_closeStep_id tagNames buf h

/-- C5: counterexample to the claim as stated.  The claim says that for every
    segment the normalizer rewrites the payload between the Code opening tag
    and the first Code closing tag.  The code only does so when the segment
    also contains a QuotedCode or GeneratedCode opening tag followed by
    optional whitespace before the Code tag: on this segment the code returns
    the input unchanged, while the claim wording demands the payload amp be
    escaped. -/
theorem c5_counterexample :
    fixup_xml_code (toL "<Foo>\n<Code>&</Code>\n</Foo>") =
        toL "<Foo>\n<Code>&</Code>\n</Foo>" ∧
      codePayloadRewriteSpec (toL "<Foo>\n<Code>&</Code>\n</Foo>") =
        toL "<Foo>\n<Code>&amp;</Code>\n</Foo>" ∧
      fixup_xml_code (toL "<Foo>\n<Code>&</Code>\n</Foo>") ≠
        codePayloadRewriteSpec (toL "<Foo>\n<Code>&</Code>\n</Foo>") := by
  refine ⟨by decide, by decide, by decide⟩

/-- Characterization of fixup_xml_code on a canonical QuotedCode segment:
    only the payload between the Code opening tag and the first Code closing
    tag is rewritten by the escaping normalizer, provided the segment needs no
    tag repair. -/
theorem fixup_quoted_canonical (P T : List Char)
    (hP1 : ¬ (toL "</Code>") <:+: P)
    (hP2 : ∀ k, k < (toL "</Code>").length → 0 < k → ¬ ((toL "</Code>").take k <:+ P))
    (hlast : (toL "</Code>" ++ T).getLast? = some '>')
    (hcl : ∀ t ∈ tagNames, tagClosed t
      (toL "<QuotedCode>\n<Code>" ++ (normalizeCode P ++ (toL "</Code>" ++ T)))) :
    fixup_xml_code (toL "<QuotedCode>\n<Code>" ++ (P ++ (toL "</Code>" ++ T))) =
      toL "<QuotedCode>\n<Code>" ++ (normalizeCode P ++ (toL "</Code>" ++ T)) := by
  have hm : matchGQCode (toL "<QuotedCode>\n<Code>" ++ (P ++ (toL "</Code>" ++ T))) =
      some (toL "<QuotedCode>\n<Code>", P ++ (toL "</Code>" ++ T)) := rfl
  have h0 : firstOcc (toL "</Code>") (toL "</Code>" ++ T) = some 0 := by
    show firstOcc (toL "</Code>") ('<' :: '/' :: 'C' :: 'o' :: 'd' :: 'e' :: '>' :: T) =
      some 0
    rw [firstOcc,
      if_pos (show isPre (toL "</Code>") ('<' :: '/' :: 'C' :: 'o' :: 'd' :: 'e' :: '>' :: T) = true from
        isPre_append_self (toL "</Code>") T)]
  have hfo : firstOcc (toL "</Code>") (P ++ (toL "</Code>" ++ T)) = some P.length := by
    rw [firstOcc_append (toL "</Code>") (toL "</Code>" ++ T) hP1 hP2, h0]
    simp
  have hhead : ((toL "<QuotedCode>\n<Code>" ++
      (P ++ (toL "</Code>" ++ T))).dropWhile isWs).head? = some '<' := rfl
  rw [fixup_xml_code, if_neg (fun hne => hne hhead), hm]
  simp only [hfo, Option.getD_some, List.take_left, List.drop_left]
  rw [List.append_assoc]
  have hne1 : (toL "</Code>" ++ T) ≠ [] := by
    rw [show toL "</Code>" ++ T = '<' :: (toL "/Code>" ++ T) from rfl]
    exact List.cons_ne_nil _ _
  have hne2 : (normalizeCode P ++ (toL "</Code>" ++ T)) ≠ [] :=
    fun h => hne1 (List.append_eq_nil.mp h).2
  have hlast2 : (toL "<QuotedCode>\n<Code>" ++
      (normalizeCode P ++ (toL "</Code>" ++ T))).getLast? = some '>' := by
    rw [List.getLast?_append_of_ne_nil _ hne2,
      List.getLast?_append_of_ne_nil _ hne1]
    exact hlast
  rw [stripTrailingTag_id _ hlast2]
  exact appendClosers_id _ hcl

/-- C5 (amended): for every segment that starts with a lt character after
    trimming and contains a QuotedCode (or GeneratedCode) opening tag followed
    by whitespace and a Code opening tag, the normalizer rewrites only the
    payload between that Code tag and the first following Code closing tag,
    by un-escaping in the order lt, gt, amp and re-escaping in the order amp,
    lt, gt; all text outside the payload is left untouched, provided the
    segment needs no tag repair (no trailing half-written tag, and every
    opening tag of the vocabulary already has its closing form).  Segments
    without this structure are returned unchanged (see the counterexample). -/
theorem c5_amended (P T : List Char)
    (hP1 : ¬ (toL "</Code>") <:+: P)
    (hP2 : ∀ k, k < (toL "</Code>").length → 0 < k → ¬ ((toL "</Code>").take k <:+ P))
    (hlast : (toL "</Code>" ++ T).getLast? = some '>')
    (hcl : ∀ t ∈ tagNames, tagClosed t
      (toL "<QuotedCode>\n<Code>" ++ (normalizeCode P ++ (toL "</Code>" ++ T)))) :
    fixup_xml_code (toL "<QuotedCode>\n<Code>" ++ (P ++ (toL "</Code>" ++ T))) =
      toL "<QuotedCode>\n<Code>" ++ (normalizeCode P ++ (toL "</Code>" ++ T)) :=
  fixup_quoted_canonical P T hP1 hP2 hlast hcl

theorem c5_amended_witness :
    fixup_xml_code (toL "<QuotedCode>\n<Code>a<b</Code>\n</QuotedCode>") =
      toL "<QuotedCode>\n<Code>a&lt;b</Code>\n</QuotedCode>" := by
  have h := c5_amended (toL "a<b") (toL "\n</QuotedCode>")
    (by decide) (by decide) (by decide) (by decide)
  rw [show (toL "<QuotedCode>\n<Code>" ++ (toL "a<b" ++
      (toL "</Code>" ++ toL "\n</QuotedCode>"))) =
    toL "<QuotedCode>\n<Code>a<b</Code>\n</QuotedCode>" from by decide] at h
  rw [h]
  decide

/-- C6: decode splits body and conclusion exactly by the reserved summary
    footnote.  Over the abstract parsed top level of the external Markdown
    engine: if the only footnote definition is labeled summary and its first
    child is a paragraph, the scan detaches it and returns the paragraph text
    as the conclusion, leaving a body with no trace of the definition; if no
    summary-labeled footnote definition exists, the conclusion is absent and
    the body is the full document. -/
theorem c6_summary_isolation :
    (∀ (pre post : List MdNode) (t : List Char),
      (∀ n ∈ pre, isFootnoteDef n = false) →
      summarySplit (pre ++
          (MdNode.footnoteDefinition (toL "summary") [MdNode.paragraph t] :: post)) =
        (pre ++ post, some t)) ∧
    (∀ nodes : List MdNode, (∀ n ∈ nodes, isSummaryDef n = false) →
      summarySplit nodes = (nodes, none)) := by
  constructor
  · intro pre post t hpre
    induction pre with
    | nil => rfl
    | cons n pre ih =>
      have hn := hpre n (List.mem_cons_self n pre)
      have hrest : ∀ m ∈ pre, isFootnoteDef m = false :=
        fun m hm => hpre m (List.mem_cons_of_mem n hm)
      cases n with
      | paragraph txt =>
        rw [List.cons_append]
        show (MdNode.paragraph txt :: (summarySplit _).1, (summarySplit _).2) = _
        rw [ih hrest]
        rfl
      | footnoteDefinition lab ch => exact absurd hn (by simp [isFootnoteDef])
      | block txt =>
        rw [List.cons_append]
        show (MdNode.block txt :: (summarySplit _).1, (summarySplit _).2) = _
        rw [ih hrest]
        rfl
  · intro nodes h
    induction nodes with
    | nil => rfl
    | cons n nodes ih =>
      have hn := h n (List.mem_cons_self n nodes)
      have hrest : ∀ m ∈ nodes, isSummaryDef m = false :=
        fun m hm => h m (List.mem_cons_of_mem n hm)
      cases n with
      | paragraph txt =>
        show (MdNode.paragraph txt :: (summarySplit _).1, (summarySplit _).2) = _
        rw [ih hrest]
      | footnoteDefinition lab ch =>
        have hlab : ¬ lab = toL "summary" := by
          simpa [isSummaryDef] using hn
        show summarySplit (MdNode.footnoteDefinition lab ch :: nodes) = _
        rw [summarySplit, if_neg hlab]
        show (MdNode.footnoteDefinition lab ch :: (summarySplit _).1,
          (summarySplit _).2) = _
        rw [ih hrest]
      | block txt =>
        show (MdNode.block txt :: (summarySplit _).1, (summarySplit _).2) = _
        rw [ih hrest]

theorem c6_summary_isolation_witness :
    summarySplit [MdNode.paragraph (toL "Hi"),
        MdNode.footnoteDefinition (toL "summary") [MdNode.paragraph (toL "S")],
        MdNode.block (toL "B")] =
      ([MdNode.paragraph (toL "Hi"), MdNode.block (toL "B")], some (toL "S")) := by
  have h := c6_summary_isolation.1 [MdNode.paragraph (toL "Hi")]
    [MdNode.block (toL "B")] (toL "S")
    (by
      intro n hn
      rcases List.mem_singleton.mp hn with rfl
      rfl)
  exact h

/-- C7: counterexample to the claim as stated.  The claim says the line
    numbers default to 0 when the field is absent; in the deserialized
    CodeChunk an absent StartLine or EndLine is an absent optional value, not
    the number 0 (present-but-empty fields do become 0). -/
theorem c7_counterexample :
    deserializeCodeChunk
        (toL "<QuotedCode><Code>x</Code><Language>Rust</Language><Path>p</Path></QuotedCode>") =
      some (CodeChunk.QuotedCode (toL "x") (toL "Rust") (toL "p") none none) ∧
    CodeChunk.QuotedCode (toL "x") (toL "Rust") (toL "p") none none ≠
      CodeChunk.QuotedCode (toL "x") (toL "Rust") (toL "p") (some 0) (some 0) := by
  exact ⟨by decide, by decide⟩

/-- C7 (amended): string fields of a deserialized CodeChunk default to the
    empty string when absent; line-number fields deserialize to the value 0
    when present but empty, and to no value when absent; the markdown
    serialization renders an absent line number the same as 0, while the
    redaction serialization omits the line tags for absent values. -/
theorem c7_amended :
    (deserializeCodeChunk (toL "<QuotedCode><Code>x</Code></QuotedCode>") =
      some (CodeChunk.QuotedCode (toL "x") [] [] none none)) ∧
    (deserializeCodeChunk
        (toL "<QuotedCode><Code>x</Code><StartLine></StartLine><EndLine></EndLine></QuotedCode>") =
      some (CodeChunk.QuotedCode (toL "x") [] [] (some 0) (some 0))) ∧
    (∀ code lang path : List Char,
      to_markdown (CodeChunk.QuotedCode code lang path none none) =
        to_markdown (CodeChunk.QuotedCode code lang path (some 0) (some 0))) ∧
    (try_trim_code_xml
        (toL "<QuotedCode><Code>x</Code><Language>Rust</Language><Path>p</Path></QuotedCode>") =
      some (toL "<QuotedCode>\n<Code>[REDACTED]</Code>\n<Language>Rust</Language>\n<Path>p</Path>\n</QuotedCode>")) := by
  refine ⟨by decide, by decide, fun code lang path => rfl, by decide⟩

/-- C9: counterexample to the claim as stated.  The claim says that with a
    recognized model id encode_summarized returns Ok and no other condition
    makes it fail.  The redaction pass runs before the tokenizer lookup and
    inherits the extractor abort: on this article the call aborts even though
    the model id is recognized. -/
theorem c9_counterexample :
    encode_summarized_core
      (fun m => if m = toL "gpt-4" then some () else none) id
      (toL "</Bar>\n<Bar>") (toL "gpt-4") = none := by rfl

/-- C9 (amended): encode_summarized first runs the redaction pass; if that
    pass aborts, the call aborts regardless of the model id.  Otherwise it
    returns the model-lookup error exactly when the tokenizer lookup fails,
    and Ok of the truncated redacted article when the lookup succeeds; the
    lookup is the only error value the caller can observe.  An article with
    no segment-pattern match always passes the redaction pass unchanged. -/
theorem c9_amended (lookup : List Char → Option Unit)
    (truncate : List Char → List Char) (article model : List Char) :
    (redact_pass article = none →
      encode_summarized_core lookup truncate article model = none) ∧
    (∀ a, redact_pass article = some a →
      ((encode_summarized_core lookup truncate article model =
          some (Except.error ()) ↔ lookup model = none) ∧
        (lookup model = some () →
          encode_summarized_core lookup truncate article model =
            some (Except.ok (truncate a))))) ∧
    (findTag article = none → redact_pass article = some article) := by
  refine ⟨?_, ?_, ?_⟩
  · intro h
    rw [encode_summarized_core, h]
  · intro a ha
    constructor
    · rw [encode_summarized_core, ha]
      cases hl : lookup model with
      | none => simp
      | some u => simp
    · intro hl
      rw [encode_summarized_core, ha, hl]
  · intro h
    exact xml_for_each_no_tag _ _ h

theorem c9_amended_witness :
    encode_summarized_core
      (fun m => if m = toL "gpt-4" then some () else none) id
      (toL "plain text") (toL "gpt-4") = some (Except.ok (toL "plain text")) := by
  have h := c9_amended (fun m => if m = toL "gpt-4" then some () else none) id
    (toL "plain text") (toL "gpt-4")
  have hr : redact_pass (toL "plain text") = some (toL "plain text") :=
    h.2.2 (by decide)
  exact (h.2.1 (toL "plain text") hr).2 (by simp)

theorem mem_of_isInfix {p l : List Char} {c : Char} (h : p <:+: l) (hc : c ∈ p) :
    c ∈ l := by
  obtain ⟨s, t, rfl⟩ := h
  simp [List.mem_append, hc]

theorem not_infix_of_head_notin {p X : List Char} {c : Char}
    (hp : c ∈ p) (hX : c ∉ X) : ¬ p <:+: X :=
  fun h => hX (mem_of_isInfix h hp)

theorem head?_mem {c : Char} {p : List Char} (hp : p.head? = some c) : c ∈ p := by
  cases p with
  | nil => simp at hp
  | cons a p =>
    simp only [List.head?_cons, Option.some.injEq] at hp
    rw [← hp]
    exact List.mem_cons_self a p

theorem head_mem_take {c : Char} {p : List Char} (hp : p.head? = some c) {k : Nat}
    (hk : 0 < k) : c ∈ p.take k := by
  cases p with
  | nil => simp at hp
  | cons a p =>
    cases k with
    | zero => omega
    | succ k =>
      simp only [List.head?_cons, Option.some.injEq] at hp
      rw [List.take_succ_cons, hp]
      exact List.mem_cons_self c _

theorem spans_of_head_notin {p X : List Char} {c : Char}
    (hp : p.head? = some c) (hX : c ∉ X) :
    ∀ k, k < p.length → 0 < k → ¬ (p.take k <:+ X) :=
  fun _ _ hk0 hs => hX (mem_of_isInfix hs.isInfix (head_mem_take hp hk0))

theorem not_infix_skel {p A P2 B : List Char} {c : Char}
    (hp : p.head? = some c)
    (hA : ¬ p <:+: A)
    (hsA : ∀ k, k < p.length → 0 < k → ¬ (p.take k <:+ A))
    (hP : c ∉ P2)
    (hB : ¬ p <:+: B) : ¬ p <:+: A ++ (P2 ++ B) := by
  intro h
  rcases infix_append_split h with h1 | h2 | ⟨k, hk0, hkl, htk, -⟩
  · exact hA h1
  · rcases infix_append_split h2 with h3 | h4 | ⟨k, hk0, hkl, htk, -⟩
    · exact hP (mem_of_isInfix h3 (head?_mem hp))
    · exact hB h4
    · exact hP (mem_of_isInfix htk.isInfix (head_mem_take hp hk0))
  · exact hsA k hkl hk0 htk

theorem replaceAll_id_of_head_notin (c : Char) (p r l : List Char) (h : c ∉ l) :
    replaceAll (c :: p) r l = l := by
  induction l with
  | nil => rfl
  | cons a l ih =>
    have ha : a ≠ c := fun he => h (he ▸ List.mem_cons_self a l)
    rw [replaceAll_single_ne c p r a l ha, ih (fun hm => h (List.mem_cons_of_mem a hm))]

theorem unescapeCode_id_of_clean (s : List Char) (h : '&' ∉ s) :
    unescapeCode s = s := by
  rw [unescapeCode,
    show toL "&lt;" = '&' :: toL "lt;" from rfl,
    show toL "&gt;" = '&' :: toL "gt;" from rfl,
    show toL "&amp;" = '&' :: toL "amp;" from rfl,
    replaceAll_id_of_head_notin _ _ _ _ h,
    replaceAll_id_of_head_notin _ _ _ _ h,
    replaceAll_id_of_head_notin _ _ _ _ h]

theorem reescapeCode_id_of_clean (s : List Char)
    (h1 : '&' ∉ s) (h2 : '<' ∉ s) (h3 : '>' ∉ s) :
    reescapeCode s = s := by
  rw [reescapeCode,
    show toL "&" = '&' :: ([] : List Char) from rfl,
    show toL "<" = '<' :: ([] : List Char) from rfl,
    show toL ">" = '>' :: ([] : List Char) from rfl,
    replaceAll_id_of_head_notin _ _ _ _ h1,
    replaceAll_id_of_head_notin _ _ _ _ h2,
    replaceAll_id_of_head_notin _ _ _ _ h3]

theorem normalizeCode_id_of_clean (s : List Char)
    (h1 : '&' ∉ s) (h2 : '<' ∉ s) (h3 : '>' ∉ s) :
    normalizeCode s = s := by
  rw [normalizeCode, unescapeCode_id_of_clean s h1,
    reescapeCode_id_of_clean s h1 h2 h3]

theorem extractField_append (name X I : List Char)
    (h1 : ¬ openTagOf name <:+: X)
    (h2 : ∀ k, k < (openTagOf name).length → 0 < k →
      ¬ ((openTagOf name).take k <:+ X)) :
    extractField name (X ++ I) = extractField name I := by
  rw [extractField, extractField, firstOcc_append _ I h1 h2]
  cases hfo : firstOcc (openTagOf name) I with
  | none => rfl
  | some i =>
    simp only [Option.map_some']
    have hd : (X ++ I).drop (i + X.length + (openTagOf name).length) =
        I.drop (i + (openTagOf name).length) := by
      rw [show i + X.length + (openTagOf name).length =
        X.length + (i + (openTagOf name).length) from by omega]
      exact List.drop_append _
    rw [hd]

theorem notin_cons_nl {c : Char} {l : List Char} (hc : c ≠ '\n') (h : c ∉ l) :
    c ∉ '\n' :: l := by
  intro hm
  rcases List.mem_cons.mp hm with h2 | h2
  · exact hc h2
  · exact h h2

/-- Characterization of fixup_xml_code on a canonical GeneratedCode segment:
    only the payload between the Code opening tag and the first Code closing
    tag is rewritten by the escaping normalizer, provided the segment needs no
    tag repair. -/
theorem fixup_generated_canonical (P T : List Char)
    (hP1 : ¬ (toL "</Code>") <:+: P)
    (hP2 : ∀ k, k < (toL "</Code>").length → 0 < k → ¬ ((toL "</Code>").take k <:+ P))
    (hlast : (toL "</Code>" ++ T).getLast? = some '>')
    (hcl : ∀ t ∈ tagNames, tagClosed t
      (toL "<GeneratedCode>\n<Code>" ++ (normalizeCode P ++ (toL "</Code>" ++ T)))) :
    fixup_xml_code (toL "<GeneratedCode>\n<Code>" ++ (P ++ (toL "</Code>" ++ T))) =
      toL "<GeneratedCode>\n<Code>" ++ (normalizeCode P ++ (toL "</Code>" ++ T)) := by
  have hm : matchGQCode (toL "<GeneratedCode>\n<Code>" ++ (P ++ (toL "</Code>" ++ T))) =
      some (toL "<GeneratedCode>\n<Code>", P ++ (toL "</Code>" ++ T)) := rfl
  have h0 : firstOcc (toL "</Code>") (toL "</Code>" ++ T) = some 0 := by
    show firstOcc (toL "</Code>") ('<' :: '/' :: 'C' :: 'o' :: 'd' :: 'e' :: '>' :: T) =
      some 0
    rw [firstOcc,
      if_pos (show isPre (toL "</Code>") ('<' :: '/' :: 'C' :: 'o' :: 'd' :: 'e' :: '>' :: T) = true from
        isPre_append_self (toL "</Code>") T)]
  have hfo : firstOcc (toL "</Code>") (P ++ (toL "</Code>" ++ T)) = some P.length := by
    rw [firstOcc_append (toL "</Code>") (toL "</Code>" ++ T) hP1 hP2, h0]
    simp
  have hhead : ((toL "<GeneratedCode>\n<Code>" ++
      (P ++ (toL "</Code>" ++ T))).dropWhile isWs).head? = some '<' := rfl
  rw [fixup_xml_code, if_neg (fun hne => hne hhead), hm]
  simp only [hfo, Option.getD_some, List.take_left, List.drop_left]
  rw [List.append_assoc]
  have hne1 : (toL "</Code>" ++ T) ≠ [] := by
    rw [show toL "</Code>" ++ T = '<' :: (toL "/Code>" ++ T) from rfl]
    exact List.cons_ne_nil _ _
  have hne2 : (normalizeCode P ++ (toL "</Code>" ++ T)) ≠ [] :=
    fun h => hne1 (List.append_eq_nil.mp h).2
  have hlast2 : (toL "<GeneratedCode>\n<Code>" ++
      (normalizeCode P ++ (toL "</Code>" ++ T))).getLast? = some '>' := by
    rw [List.getLast?_append_of_ne_nil _ hne2,
      List.getLast?_append_of_ne_nil _ hne1]
    exact hlast
  rw [stripTrailingTag_id _ hlast2]
  exact appendClosers_id _ hcl

theorem generatedBlock_assoc (code : List Char) :
    generatedBlock code (toL "Rust") = toL "<GeneratedCode>\n<Code>" ++
      (('\n' :: code) ++
        (toL "</Code>" ++ toL "\n<Language>Rust</Language>\n</GeneratedCode>")) := by
  simp only [generatedBlock, List.append_assoc]
  rfl

theorem quotedBlock_assoc (code : List Char) :
    quotedBlock code (toL "Rust") (toL "src/main.rs") (toL "10") (toL "12") =
      toL "<QuotedCode>\n<Code>" ++ (('\n' :: code) ++ (toL "</Code>" ++
        toL "\n<Language>Rust</Language>\n<Path>src/main.rs</Path>\n<StartLine>10</StartLine>\n<EndLine>12</EndLine>\n</QuotedCode>")) := by
  simp only [quotedBlock, List.append_assoc]
  rfl

theorem fixup_generatedBlock (code : List Char)
    (h1 : '<' ∉ code) (h2 : '>' ∉ code) (h3 : '&' ∉ code) :
    fixup_xml_code (generatedBlock code (toL "Rust")) =
      generatedBlock code (toL "Rust") := by
  have hPlt : '<' ∉ ('\n' :: code) := notin_cons_nl (by decide) h1
  have hPgt : '>' ∉ ('\n' :: code) := notin_cons_nl (by decide) h2
  have hPamp : '&' ∉ ('\n' :: code) := notin_cons_nl (by decide) h3
  have hnorm : normalizeCode ('\n' :: code) = '\n' :: code :=
    normalizeCode_id_of_clean _ hPamp hPlt hPgt
  have hcl : ∀ t ∈ tagNames, tagClosed t (toL "<GeneratedCode>\n<Code>" ++
      (normalizeCode ('\n' :: code) ++
        (toL "</Code>" ++ toL "\n<Language>Rust</Language>\n</GeneratedCode>"))) := by
    simp only [hnorm]
    intro t ht
    simp only [tagNames, List.mem_cons, List.not_mem_nil, or_false] at ht
    rcases ht with rfl | rfl | rfl | rfl | rfl | rfl | rfl
    · intro h0
      exact infix_append_of_right _ (infix_append_of_right _ (by decide))
    · intro h0
      exact infix_append_of_right _ (infix_append_of_right _ (by decide))
    · intro hopen
      exact absurd hopen (not_infix_skel rfl (by decide) (by decide) hPlt (by decide))
    · intro hopen
      exact absurd hopen (not_infix_skel rfl (by decide) (by decide) hPlt (by decide))
    · intro hopen
      exact absurd hopen (not_infix_skel rfl (by decide) (by decide) hPlt (by decide))
    · intro hopen
      exact absurd hopen (not_infix_skel rfl (by decide) (by decide) hPlt (by decide))
    · intro h0
      exact infix_append_of_right _ (infix_append_of_right _ (by decide))
  have h := fixup_generated_canonical ('\n' :: code)
    (toL "\n<Language>Rust</Language>\n</GeneratedCode>")
    (not_infix_of_head_notin (by decide) hPlt)
    (spans_of_head_notin rfl hPlt)
    (by decide) hcl
  rw [hnorm] at h
  rw [generatedBlock_assoc]
  exact h

theorem fixup_quotedBlock (code : List Char)
    (h1 : '<' ∉ code) (h2 : '>' ∉ code) (h3 : '&' ∉ code) :
    fixup_xml_code (quotedBlock code (toL "Rust") (toL "src/main.rs") (toL "10")
        (toL "12")) =
      quotedBlock code (toL "Rust") (toL "src/main.rs") (toL "10") (toL "12") := by
  have hPlt : '<' ∉ ('\n' :: code) := notin_cons_nl (by decide) h1
  have hPgt : '>' ∉ ('\n' :: code) := notin_cons_nl (by decide) h2
  have hPamp : '&' ∉ ('\n' :: code) := notin_cons_nl (by decide) h3
  have hnorm : normalizeCode ('\n' :: code) = '\n' :: code :=
    normalizeCode_id_of_clean _ hPamp hPlt hPgt
  have hcl : ∀ t ∈ tagNames, tagClosed t (toL "<QuotedCode>\n<Code>" ++
      (normalizeCode ('\n' :: code) ++ (toL "</Code>" ++
        toL "\n<Language>Rust</Language>\n<Path>src/main.rs</Path>\n<StartLine>10</StartLine>\n<EndLine>12</EndLine>\n</QuotedCode>"))) := by
    simp only [hnorm]
    intro t ht
    simp only [tagNames, List.mem_cons, List.not_mem_nil, or_false] at ht
    rcases ht with rfl | rfl | rfl | rfl | rfl | rfl | rfl
    · intro h0
      exact infix_append_of_right _ (infix_append_of_right _ (by decide))
    · intro h0
      exact infix_append_of_right _ (infix_append_of_right _ (by decide))
    · intro h0
      exact infix_append_of_right _ (infix_append_of_right _ (by decide))
    · intro h0
      exact infix_append_of_right _ (infix_append_of_right _ (by decide))
    · intro h0
      exact infix_append_of_right _ (infix_append_of_right _ (by decide))
    · intro h0
      exact infix_append_of_right _ (infix_append_of_right _ (by decide))
    · intro hopen
      exact absurd hopen (not_infix_skel rfl (by decide) (by decide) hPlt (by decide))
  have h := fixup_quoted_canonical ('\n' :: code)
    (toL "\n<Language>Rust</Language>\n<Path>src/main.rs</Path>\n<StartLine>10</StartLine>\n<EndLine>12</EndLine>\n</QuotedCode>")
    (not_infix_of_head_notin (by decide) hPlt)
    (spans_of_head_notin rfl hPlt)
    (by decide) hcl
  rw [hnorm] at h
  rw [quotedBlock_assoc]
  exact h

theorem extractField_skel (name code Ct : List Char) (hc : '<' ∉ code)
    (ha : ¬ openTagOf name <:+: toL "\n<Code>\n")
    (hs : ∀ k, k < (openTagOf name).length → 0 < k →
      ¬ ((openTagOf name).take k <:+ toL "\n<Code>\n")) :
    extractField name (toL "\n<Code>\n" ++ (code ++ Ct)) = extractField name Ct := by
  rw [extractField_append _ _ _ ha hs,
    extractField_append _ code Ct (not_infix_of_head_notin (List.mem_cons_self _ _) hc)
      (spans_of_head_notin rfl hc)]

theorem deserializeCodeChunk_generatedBlock (code : List Char) (h1 : '<' ∉ code) :
    deserializeCodeChunk (generatedBlock code (toL "Rust")) =
      some (CodeChunk.GeneratedCode
        ((extractField (toL "Code")
          (toL "\n<Code>\n" ++ (code ++ (toL "</Code>" ++
            toL "\n<Language>Rust</Language>\n</GeneratedCode>")))).getD [])
        (toL "Rust")) := by
  rw [generatedBlock_assoc]
  rw [show deserializeCodeChunk (toL "<GeneratedCode>\n<Code>" ++
      (('\n' :: code) ++
        (toL "</Code>" ++ toL "\n<Language>Rust</Language>\n</GeneratedCode>"))) =
    some (CodeChunk.GeneratedCode
      ((extractField (toL "Code")
        (toL "\n<Code>\n" ++ (code ++ (toL "</Code>" ++
          toL "\n<Language>Rust</Language>\n</GeneratedCode>")))).getD [])
      ((extractField (toL "Language")
        (toL "\n<Code>\n" ++ (code ++ (toL "</Code>" ++
          toL "\n<Language>Rust</Language>\n</GeneratedCode>")))).getD [])) from rfl]
  rw [extractField_skel (toL "Language") code _ h1 (by decide) (by decide)]
  rfl

theorem deserializeCodeChunk_quotedBlock (code : List Char) (h1 : '<' ∉ code) :
    deserializeCodeChunk (quotedBlock code (toL "Rust") (toL "src/main.rs")
        (toL "10") (toL "12")) =
      some (CodeChunk.QuotedCode
        ((extractField (toL "Code")
          (toL "\n<Code>\n" ++ (code ++ (toL "</Code>" ++
            toL "\n<Language>Rust</Language>\n<Path>src/main.rs</Path>\n<StartLine>10</StartLine>\n<EndLine>12</EndLine>\n</QuotedCode>")))).getD [])
        (toL "Rust") (toL "src/main.rs") (some 10) (some 12)) := by
  rw [quotedBlock_assoc]
  rw [show deserializeCodeChunk (toL "<QuotedCode>\n<Code>" ++
      (('\n' :: code) ++ (toL "</Code>" ++
        toL "\n<Language>Rust</Language>\n<Path>src/main.rs</Path>\n<StartLine>10</StartLine>\n<EndLine>12</EndLine>\n</QuotedCode>"))) =
    some (CodeChunk.QuotedCode
      ((extractField (toL "Code")
        (toL "\n<Code>\n" ++ (code ++ (toL "</Code>" ++
          toL "\n<Language>Rust</Language>\n<Path>src/main.rs</Path>\n<StartLine>10</StartLine>\n<EndLine>12</EndLine>\n</QuotedCode>")))).getD [])
      ((extractField (toL "Language")
        (toL "\n<Code>\n" ++ (code ++ (toL "</Code>" ++
          toL "\n<Language>Rust</Language>\n<Path>src/main.rs</Path>\n<StartLine>10</StartLine>\n<EndLine>12</EndLine>\n</QuotedCode>")))).getD [])
      ((extractField (toL "Path")
        (toL "\n<Code>\n" ++ (code ++ (toL "</Code>" ++
          toL "\n<Language>Rust</Language>\n<Path>src/main.rs</Path>\n<StartLine>10</StartLine>\n<EndLine>12</EndLine>\n</QuotedCode>")))).getD [])
      (deserialize_lineno (extractField (toL "StartLine")
        (toL "\n<Code>\n" ++ (code ++ (toL "</Code>" ++
          toL "\n<Language>Rust</Language>\n<Path>src/main.rs</Path>\n<StartLine>10</StartLine>\n<EndLine>12</EndLine>\n</QuotedCode>")))))
      (deserialize_lineno (extractField (toL "EndLine")
        (toL "\n<Code>\n" ++ (code ++ (toL "</Code>" ++
          toL "\n<Language>Rust</Language>\n<Path>src/main.rs</Path>\n<StartLine>10</StartLine>\n<EndLine>12</EndLine>\n</QuotedCode>"))))))
    from rfl]
  rw [extractField_skel (toL "Language") code _ h1 (by decide) (by decide),
    extractField_skel (toL "Path") code _ h1 (by decide) (by decide),
    extractField_skel (toL "StartLine") code _ h1 (by decide) (by decide),
    extractField_skel (toL "EndLine") code _ h1 (by decide) (by decide)]
  rfl

theorem tryTrim_generated (code : List Char)
    (h1 : '<' ∉ code) (h2 : '>' ∉ code) (h3 : '&' ∉ code) :
    try_trim_code_xml (generatedBlock code (toL "Rust")) =
      some (toL "<GeneratedCode>\n<Code>[REDACTED]</Code>\n<Language>Rust</Language>\n</GeneratedCode>") := by
  simp only [try_trim_code_xml]
  rw [fixup_generatedBlock code h1 h2 h3, deserializeCodeChunk_generatedBlock code h1]
  rfl

theorem tryTrim_quoted (code : List Char)
    (h1 : '<' ∉ code) (h2 : '>' ∉ code) (h3 : '&' ∉ code) :
    try_trim_code_xml (quotedBlock code (toL "Rust") (toL "src/main.rs") (toL "10")
        (toL "12")) =
      some (toL "<QuotedCode>\n<Code>[REDACTED]</Code>\n<Language>Rust</Language>\n<Path>src/main.rs</Path>\n<StartLine>10</StartLine>\n<EndLine>12</EndLine>\n</QuotedCode>") := by
  simp only [try_trim_code_xml]
  rw [fixup_quotedBlock code h1 h2 h3, deserializeCodeChunk_quotedBlock code h1]
  rfl

/-- C8: counterexample to the claim as stated.  The claim says the output of
    encode_summarized never includes the original code text of a Quoted or
    Generated block.  The segment extractor cuts the segment at the first
    occurrence of the closing tag in the remainder, so a GeneratedCode block
    whose code payload itself contains a GeneratedCode closing tag is split
    there: the part of the code after that closing tag (here the word SECRET)
    survives the redaction pass verbatim. -/
theorem c8_counterexample :
    redact_pass (toL "Hi\n\n<GeneratedCode>\n<Code>\nA\n</GeneratedCode>\nSECRET\n</Code>\n<Language>Rust</Language>\n</GeneratedCode>") =
      some (toL "Hi\n\n<GeneratedCode>\n<Code>[REDACTED]</Code>\n<Language></Language>\n</GeneratedCode>\nSECRET\n</Code>\n<Language>Rust</Language>\n</GeneratedCode>") ∧
    toL "SECRET" <:+:
      toL "Hi\n\n<GeneratedCode>\n<Code>[REDACTED]</Code>\n<Language></Language>\n</GeneratedCode>\nSECRET\n</Code>\n<Language>Rust</Language>\n</GeneratedCode>" := by
  refine ⟨by decide, by decide⟩

/-- C8 (amended): the per-segment redactor of encode_summarized replaces the
    code payload of a canonical Quoted or Generated block by the fixed marker
    [REDACTED] and preserves the language, path and line-number fields,
    provided the code payload contains no lt, gt or amp character (so the
    block's tag structure is not disturbed); when the payload itself contains
    a closing tag of the outer element, segmentation splits the block there
    and code text after the split survives verbatim (see the
    counterexample). -/
theorem c8_amended (code : List Char)
    (h1 : '<' ∉ code) (h2 : '>' ∉ code) (h3 : '&' ∉ code) :
    try_trim_code_xml (generatedBlock code (toL "Rust")) =
      some (toL "<GeneratedCode>\n<Code>[REDACTED]</Code>\n<Language>Rust</Language>\n</GeneratedCode>") ∧
    try_trim_code_xml (quotedBlock code (toL "Rust") (toL "src/main.rs") (toL "10")
        (toL "12")) =
      some (toL "<QuotedCode>\n<Code>[REDACTED]</Code>\n<Language>Rust</Language>\n<Path>src/main.rs</Path>\n<StartLine>10</StartLine>\n<EndLine>12</EndLine>\n</QuotedCode>") :=
  ⟨tryTrim_generated code h1 h2 h3, tryTrim_quoted code h1 h2 h3⟩

theorem c8_amended_witness :
    try_trim_code_xml (generatedBlock (toL "fn main()") (toL "Rust")) =
      some (toL "<GeneratedCode>\n<Code>[REDACTED]</Code>\n<Language>Rust</Language>\n</GeneratedCode>") ∧
    try_trim_code_xml (quotedBlock (toL "fn main()") (toL "Rust") (toL "src/main.rs")
        (toL "10") (toL "12")) =
      some (toL "<QuotedCode>\n<Code>[REDACTED]</Code>\n<Language>Rust</Language>\n<Path>src/main.rs</Path>\n<StartLine>10</StartLine>\n<EndLine>12</EndLine>\n</QuotedCode>") :=
  c8_amended (toL "fn main()") (by decide) (by decide) (by decide)
